import Mathlib

/-!
Verification of the client-side leaf-image validator
(`validateLeafImage` and its helpers in the repository's source).

The validator is embedded shallowly:

* a decoded image is a `PixelGrid` (width, height, and a flat row-major
  pixel function, mirroring the source's flat RGBA array indexed by
  `y * width + x`);
* all real arithmetic is carried out in `ℚ` (the source uses JS doubles;
  the thresholds and the inputs exercised here are all exact in `ℚ`);
* the two places where the source takes a square root and compares it to a
  threshold (`rStd < 6` per channel, `hueStd < 0.02`) are embedded by
  comparing the variance to the squared threshold (`sqrt` is monotone and
  both sides are nonnegative, so the comparisons are equivalent);
* the flood fill over the green mask is embedded as a fuel-based loop
  (`floodLoop`) with an explicit stack and a visited set, mirroring the
  source's explicit-stack loop; fuel `w*h + 1` is provably sufficient;
* the `try/catch` wrapper of `validateLeafImage` is embedded by taking an
  `Except String PixelGrid` (decode failure carries the error message, as
  produced by the source's `readImageData` rejection path).
-/

namespace LeafValidator

/-- One decoded pixel, 8-bit RGB channels (modelled as `ℕ`). -/
structure RGB where
  r : ℕ
  g : ℕ
  b : ℕ
deriving DecidableEq

/-- A decoded, already-downscaled image: the source's `ImageData` (flat
row-major array, pixel `(x, y)` at index `y * width + x`). -/
structure PixelGrid where
  width : ℕ
  height : ℕ
  data : ℕ → RGB

/-- The source's `LeafValidationResult`. -/
structure LeafValidationResult where
  valid : Bool
  reason : Option String
deriving DecidableEq

/-- Total pixel count (`area = width * height` in the source, line 101). -/
def area (g : PixelGrid) : ℕ := g.width * g.height

/-- The source's inline `toHSV` (lines 127–149): returns `(h, s, v)`, all in
`[0,1]`, hue defaulting to `0` when the chroma `d` is zero.  The JS
`switch (max) { case rn: … case gn: … default: … }` is the cascade of
equality tests below. -/
def toHSV (px : RGB) : ℚ × ℚ × ℚ :=
  let rn : ℚ := (px.r : ℚ) / 255
  let gn : ℚ := (px.g : ℚ) / 255
  let bn : ℚ := (px.b : ℚ) / 255
  let mx := max rn (max gn bn)
  let mn := min rn (min gn bn)
  let d := mx - mn
  let h : ℚ :=
    if d = 0 then 0
    else
      (if mx = rn then (gn - bn) / d + (if gn < bn then 6 else 0)
       else if mx = gn then (bn - rn) / d + 2
       else (rn - gn) / d + 4) / 6
  let s : ℚ := if mx = 0 then 0 else d / mx
  (h, s, mx)

/-- The source's greenish/yellowish mask predicate (line 174):
`deg ∈ [45, 160] ∧ s ≥ 0.18 ∧ v ≥ 0.12` with `deg = h * 360`. -/
def isGreenish (px : RGB) : Bool :=
  let hsv := toHSV px
  let deg := hsv.1 * 360
  decide (45 ≤ deg ∧ deg ≤ 160 ∧ (0.18 : ℚ) ≤ hsv.2.1 ∧ (0.12 : ℚ) ≤ hsv.2.2)

/-- BT.601 grayscale (line 157). -/
def grayOf (px : RGB) : ℚ :=
  0.299 * (px.r : ℚ) + 0.587 * (px.g : ℚ) + 0.114 * (px.b : ℚ)

/-- Palette quantization code (lines 161–164): 4 most significant bits per
channel packed into a 12-bit code; `(x >> 4) & 0xf` is `x / 16 % 16`, and
the disjoint shifted ORs are addition. -/
def paletteCode (px : RGB) : ℕ :=
  (px.r / 16 % 16) * 256 + (px.g / 16 % 16) * 16 + px.b / 16 % 16

/-- Green mask over flat indices (the source's `greenMask` array). -/
def greenMask (g : PixelGrid) (i : ℕ) : Bool := isGreenish (g.data i)

/-- Number of masked (greenish) pixels (the source's `greenCount`). -/
def greenCount (g : PixelGrid) : ℕ :=
  ((Finset.range (area g)).filter fun i => greenMask g i = true).card

/-- `greenRatio = greenCount / pixels` (line 182). -/
def greenRatio (g : PixelGrid) : ℚ := (greenCount g : ℚ) / (area g : ℚ)

/-- Hue samples of the masked pixels, in index order (the source's
`hueValues`, pushed at line 178). -/
def hueVals (g : PixelGrid) : List ℚ :=
  ((List.range (area g)).filter fun i => greenMask g i).map fun i => (toHSV (g.data i)).1

/-- Per-channel sum over all pixels (the source's `rSum`/`gSum`/`bSum` and,
with a squared selector, `rSq`/`gSq`/`bSq`). -/
def chanSum (g : PixelGrid) (f : RGB → ℕ) : ℕ :=
  ∑ i ∈ Finset.range (area g), f (g.data i)

/-- Population variance of a channel: `max 0 (E[x²] − mean²)` (lines
231–236).  The source then takes `sqrt` and compares the standard deviation
to `6`; we keep the variance and compare to `36`, which is equivalent. -/
def chanVar (g : PixelGrid) (f : RGB → ℕ) : ℚ :=
  let m : ℚ := (chanSum g f : ℚ) / (area g : ℚ)
  max 0 ((chanSum g (fun px => f px * f px) : ℚ) / (area g : ℚ) - m * m)

/-- `isVeryUniform = rStd < 6 ∧ gStd < 6 ∧ bStd < 6` (line 237), embedded
via variances against `36 = 6²`. -/
def isVeryUniform (g : PixelGrid) : Bool :=
  decide (chanVar g (·.r) < 36 ∧ chanVar g (·.g) < 36 ∧ chanVar g (·.b) < 36)

/-- The set of palette codes present (the key set of the source's
`paletteCounts` map). -/
def paletteBins (g : PixelGrid) : Finset ℕ :=
  (Finset.range (area g)).image fun i => paletteCode (g.data i)

/-- Occurrence count of one palette code (the value stored in the source's
`paletteCounts` map). -/
def binCount (g : PixelGrid) (c : ℕ) : ℕ :=
  ((Finset.range (area g)).filter fun i => paletteCode (g.data i) = c).card

/-- `uniqueBins = paletteCounts.size` (line 240). -/
def uniqueBins (g : PixelGrid) : ℕ := (paletteBins g).card

/-- `minBins = max(32, floor(pixels / 3000))` (line 241). -/
def minBins (g : PixelGrid) : ℕ := max 32 (area g / 3000)

/-- `paletteTooSmall = uniqueBins < minBins` (line 242). -/
def paletteTooSmall (g : PixelGrid) : Bool := decide (uniqueBins g < minBins g)

/-- `topShare` (lines 245–250): sum of the 5 largest palette-bin counts over
the pixel count (`0` when the palette map is empty).  The source sorts the
counts descending and takes the first 5; sorting ascending and reversing
yields the same multiset prefix. -/
def topShare (g : PixelGrid) : ℚ :=
  if 0 < (paletteBins g).card then
    ((((Multiset.sort (· ≤ ·) ((paletteBins g).val.map (binCount g))).reverse.take 5).sum : ℚ))
      / (area g : ℚ)
  else 0

/-- `hueStdTooLow` (lines 253–259): defined (`some`) only when at least one
hue sample exists; the source's `hueStd < 0.02` is embedded as the variance
against `0.0004 = 0.02²`. -/
def hueStdTooLow (g : PixelGrid) : Option Bool :=
  let hs := hueVals g
  if hs.length = 0 then none
  else
    let m : ℚ := hs.sum / (hs.length : ℚ)
    let v : ℚ := ((hs.map fun x => (x - m) * (x - m)).sum) / (hs.length : ℚ)
    some (decide (v < 0.0004))

/-- Interior cells `(y, x)` with `1 ≤ y < height − 1`, `1 ≤ x < width − 1`
(the edge-density double loop bounds, lines 265–266). -/
def interiorCells (g : PixelGrid) : Finset (ℕ × ℕ) :=
  Finset.Ico 1 (g.height - 1) ×ˢ Finset.Ico 1 (g.width - 1)

/-- Gradient magnitude at flat index `i` (lines 270–272).  Only evaluated at
interior indices, where `i - 1` and `i - width` do not underflow. -/
def gmag (g : PixelGrid) (i : ℕ) : ℚ :=
  (|grayOf (g.data (i + 1)) - grayOf (g.data i)| +
      |grayOf (g.data i) - grayOf (g.data (i - 1))|) +
    (|grayOf (g.data (i + g.width)) - grayOf (g.data i)| +
      |grayOf (g.data i) - grayOf (g.data (i - g.width))|)

/-- `interiorGreen`: number of interior masked pixels (line 269). -/
def interiorGreen (g : PixelGrid) : ℕ :=
  ((interiorCells g).filter fun p => greenMask g (p.1 * g.width + p.2) = true).card

/-- `edgeGreen`: interior masked pixels whose gradient magnitude exceeds the
threshold `EDGE_THR = 10` (lines 264, 273). -/
def edgeGreen (g : PixelGrid) : ℕ :=
  ((interiorCells g).filter fun p =>
    greenMask g (p.1 * g.width + p.2) = true ∧ 10 < gmag g (p.1 * g.width + p.2)).card

/-- `edgeDensity = edgeGreen / interiorGreen`, `0` when there is no interior
masked pixel (lines 276–277). -/
def edgeDensity (g : PixelGrid) : ℚ :=
  if 0 < interiorGreen g then (edgeGreen g : ℚ) / (interiorGreen g : ℚ) else 0

/-! ### Flood fill (connected components of the green mask, lines 184–228) -/

/-- Neighbor list of cell `(cx, cy)` in the order the source builds it
(line 206–214): left, right, up, down, each guarded by the bounds check. -/
def nbrs (w h cx cy : ℕ) : List (ℕ × ℕ) :=
  ((if 0 < cx then [(cx - 1, cy)] else []) ++
      (if cx + 1 < w then [(cx + 1, cy)] else [])) ++
    ((if 0 < cy then [(cx, cy - 1)] else []) ++
      (if cy + 1 < h then [(cx, cy + 1)] else []))

/-- Flat index of a cell `(x, y)`. -/
def cellIdx (w : ℕ) (p : ℕ × ℕ) : ℕ := p.2 * w + p.1

/-- One neighbor-processing step of the fill (lines 215–222): if the
neighbor's index is unvisited and masked, mark it visited and push it. -/
def pushNbr (mask : ℕ → Bool) (w : ℕ) (st : Finset ℕ × List (ℕ × ℕ)) (n : ℕ × ℕ) :
    Finset ℕ × List (ℕ × ℕ) :=
  if cellIdx w n ∉ st.1 ∧ mask (cellIdx w n) = true
  then (insert (cellIdx w n) st.1, n :: st.2) else st

/-- The source's `while (sp > 0)` fill loop (lines 202–223), with explicit
fuel.  Each iteration pops one cell, counts it, and pushes its unvisited
masked neighbors.  Returns the count of popped cells and the visited set.
Fuel `w*h + 1` is sufficient for every reachable state (proved below); the
fuel-exhausted branch is never taken then. -/
def floodLoop (mask : ℕ → Bool) (w h : ℕ) :
    ℕ → Finset ℕ → List (ℕ × ℕ) → ℕ → ℕ × Finset ℕ
  | 0, visited, _, acc => (acc, visited)
  | _ + 1, visited, [], acc => (acc, visited)
  | fuel + 1, visited, c :: rest, acc =>
    let st := (nbrs w h c.1 c.2).foldl (pushNbr mask w) (visited, rest)
    floodLoop mask w h fuel st.1 st.2 (acc + 1)

/-- Seed handling of the outer double loop (lines 194–225): a masked,
unvisited cell seeds a fill (seed marked visited and pushed first, lines
200–201); the running maximum is updated (line 224). -/
def seedStep (mask : ℕ → Bool) (w h : ℕ) (st : Finset ℕ × ℕ) (x y : ℕ) :
    Finset ℕ × ℕ :=
  if mask (cellIdx w (x, y)) = true ∧ cellIdx w (x, y) ∉ st.1 then
    let r := floodLoop mask w h (w * h + 1) (insert (cellIdx w (x, y)) st.1) [(x, y)] 0
    (r.2, max st.2 r.1)
  else st

/-- The source's largest-component pass (lines 185–227): scan all cells in
row-major order, flood-filling from each unvisited masked cell. -/
def largestComp (mask : ℕ → Bool) (w h : ℕ) : ℕ :=
  ((List.range h).foldl
      (fun st y => (List.range w).foldl (fun st x => seedStep mask w h st x y) st)
      (∅, 0)).2

/-- `largestComp` as used by the pipeline (guarded by `greenCount > 0`,
line 186; `largestComp` stays `0` otherwise). -/
def largestCompOf (g : PixelGrid) : ℕ :=
  if 0 < greenCount g then largestComp (greenMask g) g.width g.height else 0

/-- `largestCompRatio = largestComp / pixels` (line 228). -/
def largestCompRatio (g : PixelGrid) : ℚ := (largestCompOf g : ℚ) / (area g : ℚ)

/-! ### Specification of the component labeling (spec §4.3)

The spec asks for the pixel count of the largest 4-connected region of
masked pixels, independent of traversal order.  `Step`/`Reach` give the
order-free reachability relation on cells, `component` the region of a
cell, and `specLargestComponent` the largest region size. -/

/-- One 4-connected step from `p` to a masked in-bounds neighbor `q`. -/
def Step (mask : ℕ → Bool) (w h : ℕ) (p q : ℕ × ℕ) : Prop :=
  q ∈ nbrs w h p.1 p.2 ∧ mask (cellIdx w q) = true

/-- Reachability through masked cells (reflexive-transitive closure). -/
def Reach (mask : ℕ → Bool) (w h : ℕ) : ℕ × ℕ → ℕ × ℕ → Prop :=
  Relation.ReflTransGen (Step mask w h)

/-- All in-bounds cells `(x, y)` of a `w × h` grid. -/
def gridCells (w h : ℕ) : Finset (ℕ × ℕ) := Finset.range w ×ˢ Finset.range h

/-- The 4-connected region of the seed `s`: all in-bounds cells reachable
from `s` through masked cells. -/
noncomputable def component (mask : ℕ → Bool) (w h : ℕ) (s : ℕ × ℕ) : Finset (ℕ × ℕ) :=
  open Classical in (gridCells w h).filter (Reach mask w h s)

/-- Specification-side value (spec §4.3): the pixel count of the largest
4-connected region of masked pixels. -/
noncomputable def specLargestComponent (mask : ℕ → Bool) (w h : ℕ) : ℕ :=
  open Classical in
  ((gridCells w h).filter fun p => mask (cellIdx w p) = true).sup
    fun s => (component mask w h s).card

/-- The in-range masked flat indices (used for fuel accounting). -/
def maskedIdx (mask : ℕ → Bool) (w h : ℕ) : Finset ℕ :=
  (Finset.range (w * h)).filter fun j => mask j = true

/-- The Boolean test of `pushNbr`'s condition: the neighbor's index is
unvisited and masked. -/
def freshMasked (mask : ℕ → Bool) (w : ℕ) (v : Finset ℕ) (n : ℕ × ℕ) : Bool :=
  decide (cellIdx w n ∉ v) && mask (cellIdx w n)

/-- The row-major scan order of the outer double loop (lines 194–195). -/
def scanCells (w h : ℕ) : List (ℕ × ℕ) :=
  (List.range h).flatMap fun y => (List.range w).map fun x => (x, y)

/-- Invariant of the source's inner fill loop, for seed `s` and the visited
set `v0` present before this fill started. -/
structure FillInv (mask : ℕ → Bool) (w h : ℕ) (s : ℕ × ℕ) (v0 : Finset ℕ)
    (visited : Finset ℕ) (stack : List (ℕ × ℕ)) (acc : ℕ) : Prop where
  stack_good : ∀ p ∈ stack, p.1 < w ∧ p.2 < h
  stack_mask : ∀ p ∈ stack, mask (cellIdx w p) = true
  stack_vis : ∀ p ∈ stack, cellIdx w p ∈ visited
  stack_reach : ∀ p ∈ stack, Reach mask w h s p
  stack_nd : (stack.map (cellIdx w)).Nodup
  sub : v0 ⊆ visited
  seed_vis : cellIdx w s ∈ visited
  sound : ∀ j ∈ visited, j ∉ v0 → ∃ p, (p.1 < w ∧ p.2 < h) ∧ mask (cellIdx w p) = true ∧
    Reach mask w h s p ∧ cellIdx w p = j
  closure : ∀ p : ℕ × ℕ, p.1 < w → p.2 < h → mask (cellIdx w p) = true →
    cellIdx w p ∈ visited → cellIdx w p ∉ v0 → p ∈ stack ∨
      ∀ q ∈ nbrs w h p.1 p.2, mask (cellIdx w q) = true → cellIdx w q ∈ visited
  count : acc + stack.length = (visited \ v0).card

/-- Invariant of the outer scan: after processing the cells of `P`, the
visited set is the union of the components of the processed masked cells
and the running maximum is the largest of their sizes. -/
def OuterInv (mask : ℕ → Bool) (w h : ℕ) (P : List (ℕ × ℕ)) (st : Finset ℕ × ℕ) : Prop :=
  (∀ j, j ∈ st.1 ↔ ∃ p ∈ P, mask (cellIdx w p) = true ∧
      j ∈ (component mask w h p).image (cellIdx w)) ∧
    st.2 = open Classical in
      (P.toFinset.filter fun p => mask (cellIdx w p) = true).sup
        fun p => (component mask w h p).card

/-! ### Decision engine (lines 279–315) -/

/-- The scalar features the decision engine (lines 279–315) reads. -/
structure FeatureSummary where
  greenRatio : ℚ
  largestCompRatio : ℚ
  isVeryUniform : Bool
  paletteTooSmall : Bool
  topShare : ℚ
  hueStdTooLow : Option Bool
  edgeDensity : ℚ
deriving DecidableEq

/-- Assemble the decision engine's inputs from a decoded grid. -/
def summarize (g : PixelGrid) : FeatureSummary :=
  ⟨greenRatio g, largestCompRatio g, isVeryUniform g, paletteTooSmall g,
    topShare g, hueStdTooLow g, edgeDensity g⟩

/-- The soft score (lines 291–302): one point is always awarded for green
coverage (guaranteed by the guard already passed), plus one point for each
of the four remaining signals. -/
def softScore (f : FeatureSummary) : ℕ :=
  1 + (if f.isVeryUniform = false ∨ f.paletteTooSmall = false then 1 else 0) +
    (if f.edgeDensity = 0 ∨ ((0.015 : ℚ) ≤ f.edgeDensity ∧ f.edgeDensity ≤ (0.60 : ℚ))
      then 1 else 0) +
    (if f.hueStdTooLow = none ∨ f.hueStdTooLow = some false then 1 else 0) +
    (if f.topShare ≤ (0.70 : ℚ) then 1 else 0)

/-- The count of satisfied signals among signals 2–5 only (claim C1's
equivalent formulation; `softScore = 1 + softTail`). -/
def softTail (f : FeatureSummary) : ℕ :=
  (if f.isVeryUniform = false ∨ f.paletteTooSmall = false then 1 else 0) +
    (if f.edgeDensity = 0 ∨ ((0.015 : ℚ) ≤ f.edgeDensity ∧ f.edgeDensity ≤ (0.60 : ℚ))
      then 1 else 0) +
    (if f.hueStdTooLow = none ∨ f.hueStdTooLow = some false then 1 else 0) +
    (if f.topShare ≤ (0.70 : ℚ) then 1 else 0)

/-- Phase 2 (mandatory content guards, lines 279–288) followed by Phase 3
(soft scoring and reason selection, lines 290–315), verbatim from the
source's cascade of early returns. -/
def phase2and3 (f : FeatureSummary) : LeafValidationResult :=
  if f.greenRatio < (0.18 : ℚ) then
    ⟨false, some "Area daun terlalu kecil/Objek bukan daun."⟩
  else if f.largestCompRatio < (0.12 : ℚ) then
    ⟨false, some "Objek daun terlalu kecil/tersebar (bukan satu daun utama)."⟩
  else if (0.995 : ℚ) < f.greenRatio then
    ⟨false, some "Gambar terlalu dominan satu warna (kemungkinan latar/ilustrasi)."⟩
  else if 3 ≤ softScore f then
    ⟨true, none⟩
  else if f.largestCompRatio < (0.12 : ℚ) then
    ⟨false, some "Objek daun terlalu kecil/tersebar."⟩
  else if f.isVeryUniform = true then
    ⟨false, some "Gambar terlalu seragam seperti ilustrasi/solid color."⟩
  else if f.paletteTooSmall = true ∨ (0.70 : ℚ) < f.topShare then
    ⟨false, some "Palet warna sangat terbatas seperti ikon/ilustrasi."⟩
  else if (0.60 : ℚ) < f.edgeDensity then
    ⟨false, some "Terlalu banyak garis tegas seperti ikon/teks."⟩
  else if f.edgeDensity < (0.01 : ℚ) then
    ⟨false, some "Tekstur daun tidak terdeteksi (terlalu datar)."⟩
  else
    ⟨false, some "Gambar tidak menunjukkan ciri daun tanaman yang jelas."⟩

/-- The whole pipeline on a decoded grid: Phase 1 guards (lines 104–112),
then feature extraction and Phases 2–3. -/
def validateDecoded (g : PixelGrid) : LeafValidationResult :=
  if area g < 8000 then
    ⟨false, some "Gambar terlalu kecil untuk dianalisis."⟩
  else if (7 : ℚ) < (max g.width g.height : ℚ) / (max 1 (min g.width g.height) : ℚ) then
    ⟨false, some "Rasio gambar terlalu ekstrem (tidak wajar)."⟩
  else phase2and3 (summarize g)

/-- The source's `validateLeafImage` (lines 98–320): decode, then analyze;
the top-level `try/catch` converts any decode failure into a rejection
carrying the error's message.  A decode outcome is an
`Except String PixelGrid` (the error case carries `err.message`). -/
def validateLeafImage (input : Except String PixelGrid) : LeafValidationResult :=
  match input with
  | Except.error msg => ⟨false, some msg⟩
  | Except.ok g => validateDecoded g

/-! ### Specification-side definitions (from the spec's words) -/

/-- Specification-side definition (claim C2 / spec §4.4): the reason of the
first failing guard, checking the five guards in the spec's order (Phase 1:
minimum area, aspect ratio; Phase 2: green ratio too small, largest
component too small, green ratio too large); `none` when all guards pass. -/
def guardVerdict (g : PixelGrid) : Option String :=
  if area g < 8000 then some "Gambar terlalu kecil untuk dianalisis."
  else if (7 : ℚ) < (max g.width g.height : ℚ) / (max 1 (min g.width g.height) : ℚ) then
    some "Rasio gambar terlalu ekstrem (tidak wajar)."
  else if (summarize g).greenRatio < (0.18 : ℚ) then
    some "Area daun terlalu kecil/Objek bukan daun."
  else if (summarize g).largestCompRatio < (0.12 : ℚ) then
    some "Objek daun terlalu kecil/tersebar (bukan satu daun utama)."
  else if (0.995 : ℚ) < (summarize g).greenRatio then
    some "Gambar terlalu dominan satu warna (kemungkinan latar/ilustrasi)."
  else none

/-- Specification-side definition (claim C4 / spec §4.4): the single most
specific applicable rejection reason for a Phase 3 rejection, in the spec's
priority order: fragmented leaf region, then overly uniform color, then
palette too limited/icon-like, then too many hard edges, then texture too
flat, then the generic reason. -/
def softRejectReason (f : FeatureSummary) : String :=
  if f.largestCompRatio < (0.12 : ℚ) then "Objek daun terlalu kecil/tersebar."
  else if f.isVeryUniform = true then "Gambar terlalu seragam seperti ilustrasi/solid color."
  else if f.paletteTooSmall = true ∨ (0.70 : ℚ) < f.topShare then
    "Palet warna sangat terbatas seperti ikon/ilustrasi."
  else if (0.60 : ℚ) < f.edgeDensity then "Terlalu banyak garis tegas seperti ikon/teks."
  else if f.edgeDensity < (0.01 : ℚ) then "Tekstur daun tidak terdeteksi (terlalu datar)."
  else "Gambar tidak menunjukkan ciri daun tanaman yang jelas."

/-! ### Concrete inputs used by witnesses and counterexamples -/

/-- A solid-color grid: every pixel holds the same RGB value. -/
def constGrid (w h : ℕ) (c : RGB) : PixelGrid := ⟨w, h, fun _ => c⟩

/-- A 1×1 decoded grid holding the green pixel RGB(60,160,60). -/
def grid1x1 : PixelGrid := ⟨1, 1, fun _ => ⟨60, 160, 60⟩⟩

/-- A 100×100 grid whose top 50 rows are the green pixel RGB(60,160,60) and
whose bottom 50 rows are the red pixel RGB(200,30,30): passes every Phase 1
and Phase 2 guard (greenRatio = largestCompRatio = 1/2). -/
def blockGrid : PixelGrid :=
  ⟨100, 100, fun i => if i < 5000 then ⟨60, 160, 60⟩ else ⟨200, 30, 30⟩⟩

/-- The mask of claim C3's concrete example on a 40×25 (1000-pixel) grid:
two disjoint, non-adjacent rectangular blobs of 100 pixels
(`x ∈ [0,10), y ∈ [0,10)`) and 400 pixels (`x ∈ [15,35), y ∈ [2,22)`). -/
def exBlobMask (j : ℕ) : Bool :=
  decide (j % 40 < 10 ∧ j / 40 < 10) ||
    decide (15 ≤ j % 40 ∧ j % 40 < 35 ∧ 2 ≤ j / 40 ∧ j / 40 < 22)

/-- A 250×32 solid-green grid: exactly 8000 pixels, every pixel
RGB(60,160,60), aspect ratio 250/32 > 7. -/
def grid250x32 : PixelGrid := ⟨250, 32, fun _ => ⟨60, 160, 60⟩⟩

/-- A feature summary that passes all Phase 2 guards yet scores 1 (only the
always-awarded green-coverage signal). -/
def lowScoreSummary : FeatureSummary :=
  ⟨1/2, 1/2, true, true, 1, some true, 1/200⟩

/-! ### Basic facts about the pipeline -/

/-- `softScore` is one (the always-awarded green-coverage point) plus the
number of satisfied signals among signals 2–5. -/
theorem softScore_eq_one_add (f : FeatureSummary) : softScore f = 1 + softTail f := by
  unfold softScore softTail
  omega

/-- The masked-hue sample list has exactly one entry per masked pixel. -/
theorem hueVals_length (g : PixelGrid) : (hueVals g).length = greenCount g := by
  unfold hueVals greenCount greenMask
  rw [List.length_map]
  induction area g with
  | zero => simp
  | succ n ih =>
    rw [List.range_succ, List.filter_append, List.length_append, Finset.range_succ,
      Finset.filter_insert]
    by_cases hp : isGreenish (g.data n) = true
    · rw [if_pos hp, Finset.card_insert_of_not_mem (by simp)]
      simp [hp, ih]
    · rw [if_neg hp]
      simp [hp, ih]

/-- The decision engine returns either a bare acceptance or a rejection
carrying a reason. -/
theorem phase2and3_cases (f : FeatureSummary) :
    phase2and3 f = ⟨true, none⟩ ∨ ∃ s, phase2and3 f = ⟨false, some s⟩ := by
  unfold phase2and3
  repeat' split
  all_goals first
    | exact Or.inl rfl
    | exact Or.inr ⟨_, rfl⟩

/-- If the green-ratio guard passes then at least one pixel is masked. -/
theorem greenCount_pos_of_ratio (g : PixelGrid)
    (h : ¬ ((summarize g).greenRatio < (0.18 : ℚ))) : 0 < greenCount g := by
  by_contra hc
  apply h
  have h0 : greenCount g = 0 := by omega
  show greenRatio g < (0.18 : ℚ)
  unfold greenRatio
  rw [h0]
  norm_num

/-- Flat index of an in-bounds cell is in range. -/
theorem cellIdx_lt {w h : ℕ} {p : ℕ × ℕ} (h1 : p.1 < w) (h2 : p.2 < h) :
    cellIdx w p < w * h := by
  unfold cellIdx
  calc p.2 * w + p.1 < p.2 * w + w := by omega
    _ = (p.2 + 1) * w := by ring
    _ ≤ h * w := Nat.mul_le_mul_right w h2
    _ = w * h := Nat.mul_comm h w

/-- Flat indexing is injective on cells with in-range x coordinate. -/
theorem cellIdx_inj {w : ℕ} {p q : ℕ × ℕ} (hp : p.1 < w) (hq : q.1 < w)
    (he : cellIdx w p = cellIdx w q) : p = q := by
  unfold cellIdx at he
  have key : p.2 = q.2 := by
    rcases Nat.lt_trichotomy p.2 q.2 with hlt | heq | hgt
    · have h1 : (p.2 + 1) * w ≤ q.2 * w := Nat.mul_le_mul_right w hlt
      rw [Nat.succ_mul] at h1
      omega
    · exact heq
    · have h1 : (q.2 + 1) * w ≤ p.2 * w := Nat.mul_le_mul_right w hgt
      rw [Nat.succ_mul] at h1
      omega
  have h1 : p.1 = q.1 := by
    rw [key] at he
    omega
  obtain ⟨a, b⟩ := p
  obtain ⟨c, d⟩ := q
  simp_all

/-- Characterization of the neighbor-list membership for an in-bounds
center. -/
theorem mem_nbrs {w h cx cy : ℕ} (hx : cx < w) (hy : cy < h) (q : ℕ × ℕ) :
    q ∈ nbrs w h cx cy ↔
      q.1 < w ∧ q.2 < h ∧
        ((q.2 = cy ∧ (q.1 + 1 = cx ∨ q.1 = cx + 1)) ∨
          (q.1 = cx ∧ (q.2 + 1 = cy ∨ q.2 = cy + 1))) := by
  obtain ⟨a, b⟩ := q
  unfold nbrs
  split_ifs <;> simp [Prod.ext_iff] <;> omega

/-- Neighbors of an in-bounds cell are in bounds. -/
theorem nbrs_good {w h cx cy : ℕ} (hx : cx < w) (hy : cy < h) {q : ℕ × ℕ}
    (hq : q ∈ nbrs w h cx cy) : q.1 < w ∧ q.2 < h := by
  have t := (mem_nbrs hx hy q).1 hq
  exact ⟨t.1, t.2.1⟩

/-- 4-adjacency is symmetric (for in-bounds cells). -/
theorem nbrs_symm {w h : ℕ} {p q : ℕ × ℕ} (hp1 : p.1 < w) (hp2 : p.2 < h)
    (hq : q ∈ nbrs w h p.1 p.2) : p ∈ nbrs w h q.1 q.2 := by
  obtain ⟨hq1, hq2, hsh⟩ := (mem_nbrs hp1 hp2 q).1 hq
  rw [mem_nbrs hq1 hq2]
  exact ⟨hp1, hp2, by omega⟩

/-- The neighbor list has no duplicate cells. -/
theorem nbrs_nodup {w h cx cy : ℕ} : (nbrs w h cx cy).Nodup := by
  unfold nbrs
  split_ifs <;> simp [Prod.ext_iff] <;> omega

/-- The indices of the (up to four) neighbors are pairwise distinct. -/
theorem nbrs_map_nodup {w h cx cy : ℕ} (hx : cx < w) (hy : cy < h) :
    ((nbrs w h cx cy).map (cellIdx w)).Nodup := by
  refine List.Nodup.map_on ?_ nbrs_nodup
  intro x hxm y hym hf
  exact cellIdx_inj (nbrs_good hx hy hxm).1 (nbrs_good hx hy hym).1 hf



/-- Reachable cells are the seed itself or in-bounds masked cells. -/
theorem reach_good_masked {mask : ℕ → Bool} {w h : ℕ} {s t : ℕ × ℕ}
    (hs1 : s.1 < w) (hs2 : s.2 < h) (hr : Reach mask w h s t) :
    t = s ∨ (t.1 < w ∧ t.2 < h ∧ mask (cellIdx w t) = true) := by
  induction hr with
  | refl => left; rfl
  | @tail b c h1 h2 ih =>
    right
    obtain ⟨hn, hm⟩ := h2
    have hbg : b.1 < w ∧ b.2 < h := by
      rcases ih with rfl | ⟨u1, u2, _⟩
      · exact ⟨hs1, hs2⟩
      · exact ⟨u1, u2⟩
    have hg := nbrs_good hbg.1 hbg.2 hn
    exact ⟨hg.1, hg.2, hm⟩

/-- From a masked in-bounds seed, reachability is symmetric. -/
theorem reach_symm {mask : ℕ → Bool} {w h : ℕ} {s t : ℕ × ℕ}
    (hs1 : s.1 < w) (hs2 : s.2 < h) (hsm : mask (cellIdx w s) = true)
    (hr : Reach mask w h s t) : Reach mask w h t s := by
  induction hr with
  | refl => exact Relation.ReflTransGen.refl
  | @tail b c h1 h2 ih =>
    have hbgm : (b.1 < w ∧ b.2 < h) ∧ mask (cellIdx w b) = true := by
      rcases reach_good_masked hs1 hs2 h1 with rfl | ⟨u1, u2, um⟩
      · exact ⟨⟨hs1, hs2⟩, hsm⟩
      · exact ⟨⟨u1, u2⟩, um⟩
    have hstep : Step mask w h c b := ⟨nbrs_symm hbgm.1.1 hbgm.1.2 h2.1, hbgm.2⟩
    exact Relation.ReflTransGen.head hstep ih

/-- Membership in a component. -/
theorem mem_component {mask : ℕ → Bool} {w h : ℕ} {s t : ℕ × ℕ} :
    t ∈ component mask w h s ↔ t.1 < w ∧ t.2 < h ∧ Reach mask w h s t := by
  unfold component gridCells
  simp [Finset.mem_filter, Finset.mem_product, and_assoc]

/-- An in-bounds seed belongs to its own component. -/
theorem self_mem_component {mask : ℕ → Bool} {w h : ℕ} {s : ℕ × ℕ}
    (hs1 : s.1 < w) (hs2 : s.2 < h) : s ∈ component mask w h s :=
  mem_component.2 ⟨hs1, hs2, Relation.ReflTransGen.refl⟩

/-- Components of mutually reachable masked in-bounds cells coincide. -/
theorem component_eq_of_reach {mask : ℕ → Bool} {w h : ℕ} {p c : ℕ × ℕ}
    (hp1 : p.1 < w) (hp2 : p.2 < h) (hpm : mask (cellIdx w p) = true)
    (hr : Reach mask w h p c) : component mask w h p = component mask w h c := by
  ext x
  rw [mem_component, mem_component]
  constructor
  · rintro ⟨x1, x2, hx⟩
    exact ⟨x1, x2, Relation.ReflTransGen.trans (reach_symm hp1 hp2 hpm hr) hx⟩
  · rintro ⟨x1, x2, hx⟩
    exact ⟨x1, x2, Relation.ReflTransGen.trans hr hx⟩

/-- The Boolean freshness test in propositional form. -/
theorem freshMasked_iff {mask : ℕ → Bool} {w : ℕ} {v : Finset ℕ} {n : ℕ × ℕ} :
    freshMasked mask w v n = true ↔ cellIdx w n ∉ v ∧ mask (cellIdx w n) = true := by
  simp [freshMasked]

/-- Closed form of the neighbor fold of one fill iteration: the fresh masked
neighbors are pushed (marked visited), everything else is unchanged. -/
theorem foldl_pushNbr_eq (mask : ℕ → Bool) (w : ℕ) :
    ∀ (L : List (ℕ × ℕ)) (v : Finset ℕ) (st : List (ℕ × ℕ)),
      (L.map (cellIdx w)).Nodup →
      L.foldl (pushNbr mask w) (v, st) =
        (v ∪ ((L.filter (freshMasked mask w v)).map (cellIdx w)).toFinset,
          (L.filter (freshMasked mask w v)).reverse ++ st) := by
  intro L
  induction L with
  | nil => intro v st _; simp
  | cons n L ih =>
    intro v st hnd
    rw [List.map_cons, List.nodup_cons] at hnd
    obtain ⟨hn, hnd⟩ := hnd
    by_cases hc : cellIdx w n ∉ v ∧ mask (cellIdx w n) = true
    · rw [List.foldl_cons]
      have hpn : pushNbr mask w (v, st) n = (insert (cellIdx w n) v, n :: st) := by
        unfold pushNbr
        rw [if_pos hc]
      rw [hpn, ih _ _ hnd]
      have hfilter : L.filter (freshMasked mask w (insert (cellIdx w n) v)) =
          L.filter (freshMasked mask w v) := by
        apply List.filter_congr
        intro m hm
        have hne : cellIdx w m ≠ cellIdx w n :=
          fun he => hn (he ▸ List.mem_map_of_mem (cellIdx w) hm)
        simp [freshMasked, Finset.mem_insert, hne]
      rw [hfilter, List.filter_cons_of_pos (freshMasked_iff.2 hc)]
      refine Prod.ext ?_ ?_
      · show insert (cellIdx w n) v ∪ _ = v ∪ _
        rw [List.map_cons, List.toFinset_cons, Finset.insert_union, Finset.union_insert]
      · show _ ++ (n :: st) = (n :: _).reverse ++ st
        rw [List.reverse_cons, List.append_assoc]
        rfl
    · rw [List.foldl_cons]
      have hpn : pushNbr mask w (v, st) n = (v, st) := by
        unfold pushNbr
        rw [if_neg hc]
      have hfn : freshMasked mask w v n = false := by
        rw [← Bool.not_eq_true, freshMasked_iff]
        exact hc
      rw [hpn, ih _ _ hnd, List.filter_cons_of_neg (by simp [hfn])]



/-- One iteration of the fill loop preserves the invariant and the fuel
accounting: popping the head cell and pushing its fresh masked neighbors. -/
theorem fillStep_inv (mask : ℕ → Bool) (w h : ℕ) (s : ℕ × ℕ) (v0 : Finset ℕ)
    (visited : Finset ℕ) (c : ℕ × ℕ) (rest : List (ℕ × ℕ)) (acc : ℕ)
    (hInv : FillInv mask w h s v0 visited (c :: rest) acc) :
    FillInv mask w h s v0
        (visited ∪
          (((nbrs w h c.1 c.2).filter (freshMasked mask w visited)).map (cellIdx w)).toFinset)
        (((nbrs w h c.1 c.2).filter (freshMasked mask w visited)).reverse ++ rest)
        (acc + 1) ∧
      (((nbrs w h c.1 c.2).filter (freshMasked mask w visited)).map (cellIdx w)).toFinset.card
          = ((nbrs w h c.1 c.2).filter (freshMasked mask w visited)).length ∧
      (((nbrs w h c.1 c.2).filter (freshMasked mask w visited)).map (cellIdx w)).toFinset
        ⊆ maskedIdx mask w h \ visited := by
  have hcg : c.1 < w ∧ c.2 < h := hInv.stack_good c (List.mem_cons_self c rest)
  have hcm : mask (cellIdx w c) = true := hInv.stack_mask c (List.mem_cons_self c rest)
  have hcr : Reach mask w h s c := hInv.stack_reach c (List.mem_cons_self c rest)
  set F := (nbrs w h c.1 c.2).filter (freshMasked mask w visited) with hF
  set B := (F.map (cellIdx w)).toFinset with hB
  have hFmem : ∀ p ∈ F, p ∈ nbrs w h c.1 c.2 ∧ cellIdx w p ∉ visited ∧
      mask (cellIdx w p) = true := by
    intro p hp
    rw [hF, List.mem_filter] at hp
    exact ⟨hp.1, (freshMasked_iff.1 hp.2).1, (freshMasked_iff.1 hp.2).2⟩
  have hFgood : ∀ p ∈ F, p.1 < w ∧ p.2 < h := fun p hp =>
    nbrs_good hcg.1 hcg.2 (hFmem p hp).1
  have hFreach : ∀ p ∈ F, Reach mask w h s p := fun p hp =>
    Relation.ReflTransGen.tail hcr ⟨(hFmem p hp).1, (hFmem p hp).2.2⟩
  have hFnd : (F.map (cellIdx w)).Nodup := by
    have hsub : F.Sublist (nbrs w h c.1 c.2) := List.filter_sublist _
    exact (nbrs_map_nodup hcg.1 hcg.2).sublist (hsub.map (cellIdx w))
  have hmemB : ∀ j, j ∈ B ↔ ∃ p ∈ F, cellIdx w p = j := by
    intro j
    rw [hB]
    simp [List.mem_map]
  have hBnotvis : ∀ j ∈ B, j ∉ visited := by
    intro j hj
    obtain ⟨p, hp, rfl⟩ := (hmemB j).1 hj
    exact (hFmem p hp).2.1
  have hcardB : B.card = F.length := by
    rw [hB, List.toFinset_card_of_nodup hFnd, List.length_map]
  have hBsub : B ⊆ maskedIdx mask w h \ visited := by
    intro j hj
    obtain ⟨p, hp, rfl⟩ := (hmemB j).1 hj
    rw [Finset.mem_sdiff]
    refine ⟨?_, (hFmem p hp).2.1⟩
    unfold maskedIdx
    rw [Finset.mem_filter]
    exact ⟨Finset.mem_range.2 (cellIdx_lt (hFgood p hp).1 (hFgood p hp).2),
      (hFmem p hp).2.2⟩
  refine ⟨⟨?_, ?_, ?_, ?_, ?_, ?_, ?_, ?_, ?_, ?_⟩, hcardB, hBsub⟩
  · intro p hp
    rcases List.mem_append.1 hp with hp | hp
    · exact hFgood p (List.mem_reverse.1 hp)
    · exact hInv.stack_good p (List.mem_cons_of_mem c hp)
  · intro p hp
    rcases List.mem_append.1 hp with hp | hp
    · exact (hFmem p (List.mem_reverse.1 hp)).2.2
    · exact hInv.stack_mask p (List.mem_cons_of_mem c hp)
  · intro p hp
    rcases List.mem_append.1 hp with hp | hp
    · exact Finset.mem_union_right _ ((hmemB _).2 ⟨p, List.mem_reverse.1 hp, rfl⟩)
    · exact Finset.mem_union_left _ (hInv.stack_vis p (List.mem_cons_of_mem c hp))
  · intro p hp
    rcases List.mem_append.1 hp with hp | hp
    · exact hFreach p (List.mem_reverse.1 hp)
    · exact hInv.stack_reach p (List.mem_cons_of_mem c hp)
  · rw [List.map_append, List.map_reverse]
    refine List.Nodup.append (List.nodup_reverse.2 hFnd)
      ((List.nodup_cons.1 hInv.stack_nd).2) ?_
    intro j hj1 hj2
    rw [List.mem_reverse] at hj1
    have hjB : j ∈ B := by
      rw [hB, List.mem_toFinset]
      exact hj1
    obtain ⟨p, hp, rfl⟩ := List.mem_map.1 hj2
    exact hBnotvis _ hjB (hInv.stack_vis p (List.mem_cons_of_mem c hp))
  · exact hInv.sub.trans Finset.subset_union_left
  · exact Finset.mem_union_left _ hInv.seed_vis
  · intro j hj hj0
    rcases Finset.mem_union.1 hj with hj | hj
    · exact hInv.sound j hj hj0
    · obtain ⟨p, hp, rfl⟩ := (hmemB j).1 hj
      exact ⟨p, hFgood p hp, (hFmem p hp).2.2, hFreach p hp, rfl⟩
  · intro p hp1 hp2 hpm hpv hpv0
    rcases Finset.mem_union.1 hpv with hpv | hpv
    · rcases hInv.closure p hp1 hp2 hpm hpv hpv0 with hstk | hcl
      · rcases List.mem_cons.1 hstk with rfl | hstk
        · right
          intro q hq hqm
          by_cases hqv : cellIdx w q ∈ visited
          · exact Finset.mem_union_left _ hqv
          · refine Finset.mem_union_right _ ((hmemB _).2 ⟨q, ?_, rfl⟩)
            rw [hF, List.mem_filter]
            exact ⟨hq, freshMasked_iff.2 ⟨hqv, hqm⟩⟩
        · exact Or.inl (List.mem_append.2 (Or.inr hstk))
      · right
        intro q hq hqm
        exact Finset.mem_union_left _ (hcl q hq hqm)
    · obtain ⟨p', hp', he⟩ := (hmemB _).1 hpv
      have hpe : p' = p := cellIdx_inj (hFgood p' hp').1 hp1 he
      subst hpe
      exact Or.inl (List.mem_append.2 (Or.inl (List.mem_reverse.2 hp')))
  · have hdisj1 : Disjoint B v0 := by
      rw [Finset.disjoint_left]
      intro j hj hj0
      exact hBnotvis j hj (hInv.sub hj0)
    have hdisj2 : Disjoint (visited \ v0) B := by
      rw [Finset.disjoint_right]
      intro j hj hjd
      exact hBnotvis j hj (Finset.mem_sdiff.1 hjd).1
    have hcard : ((visited ∪ B) \ v0).card = (visited \ v0).card + F.length := by
      rw [Finset.union_sdiff_distrib, Finset.sdiff_eq_self_iff_disjoint.2 hdisj1,
        Finset.card_union_of_disjoint hdisj2, hcardB]
    have hc0 := hInv.count
    rw [List.length_cons] at hc0
    rw [List.length_append, List.length_reverse, hcard]
    omega

/-- Running the fill loop from an invariant state with sufficient fuel
reaches the empty stack, returning the number of newly visited cells. -/
theorem floodLoop_run (mask : ℕ → Bool) (w h : ℕ) (s : ℕ × ℕ) (v0 : Finset ℕ) :
    ∀ (fuel : ℕ) (visited : Finset ℕ) (stack : List (ℕ × ℕ)) (acc : ℕ),
      FillInv mask w h s v0 visited stack acc →
      stack.length + (maskedIdx mask w h \ visited).card ≤ fuel →
      ∃ vfin, floodLoop mask w h fuel visited stack acc =
          ((vfin \ v0).card, vfin) ∧
        FillInv mask w h s v0 vfin [] ((vfin \ v0).card) := by
  intro fuel
  induction fuel with
  | zero =>
    intro visited stack acc hInv hf
    have hs0 : stack = [] := by
      cases stack with
      | nil => rfl
      | cons a l => simp at hf
    subst hs0
    have hacc : acc = (visited \ v0).card := by simpa using hInv.count
    subst hacc
    exact ⟨visited, by simp [floodLoop], hInv⟩
  | succ fuel ih =>
    intro visited stack acc hInv hf
    cases stack with
    | nil =>
      have hacc : acc = (visited \ v0).card := by simpa using hInv.count
      subst hacc
      exact ⟨visited, by simp [floodLoop], hInv⟩
    | cons c rest =>
      have hcg : c.1 < w ∧ c.2 < h := hInv.stack_good c (List.mem_cons_self c rest)
      obtain ⟨hInv', hcardB, hBsub⟩ :=
        fillStep_inv mask w h s v0 visited c rest acc hInv
      have hstep : floodLoop mask w h (fuel + 1) visited (c :: rest) acc =
          floodLoop mask w h fuel
            (visited ∪
              (((nbrs w h c.1 c.2).filter (freshMasked mask w visited)).map
                (cellIdx w)).toFinset)
            (((nbrs w h c.1 c.2).filter (freshMasked mask w visited)).reverse ++ rest)
            (acc + 1) := by
        simp only [floodLoop]
        rw [foldl_pushNbr_eq mask w _ _ _ (nbrs_map_nodup hcg.1 hcg.2)]
      rw [hstep]
      refine ih _ _ _ hInv' ?_
      have hsd : maskedIdx mask w h \
          (visited ∪
            (((nbrs w h c.1 c.2).filter (freshMasked mask w visited)).map
              (cellIdx w)).toFinset) =
          (maskedIdx mask w h \ visited) \
            (((nbrs w h c.1 c.2).filter (freshMasked mask w visited)).map
              (cellIdx w)).toFinset := by
        ext j
        simp only [Finset.mem_sdiff, Finset.mem_union]
        tauto
      have hle : (((nbrs w h c.1 c.2).filter (freshMasked mask w visited)).map
          (cellIdx w)).toFinset.card ≤ (maskedIdx mask w h \ visited).card :=
        Finset.card_le_card hBsub
      rw [List.length_append, List.length_reverse, hsd, Finset.card_sdiff hBsub, hcardB]
      rw [List.length_cons] at hf
      omega


/-- With an empty stack, every cell reachable from the seed has been
visited (the frontier property closes the component). -/
theorem fill_visited_of_reach (mask : ℕ → Bool) (w h : ℕ) (s : ℕ × ℕ)
    (v0 : Finset ℕ) (visited : Finset ℕ) (acc : ℕ)
    (hs1 : s.1 < w) (hs2 : s.2 < h) (hsm : mask (cellIdx w s) = true)
    (hdisj : ∀ t ∈ component mask w h s, cellIdx w t ∉ v0)
    (hInv : FillInv mask w h s v0 visited [] acc) :
    ∀ t, Reach mask w h s t → cellIdx w t ∈ visited := by
  intro t htr
  induction htr with
  | refl => exact hInv.seed_vis
  | @tail b c h1 h2 ih =>
    have hbgm : (b.1 < w ∧ b.2 < h) ∧ mask (cellIdx w b) = true := by
      rcases reach_good_masked hs1 hs2 h1 with rfl | ⟨u1, u2, um⟩
      · exact ⟨⟨hs1, hs2⟩, hsm⟩
      · exact ⟨⟨u1, u2⟩, um⟩
    have hb0 : cellIdx w b ∉ v0 :=
      hdisj b (mem_component.2 ⟨hbgm.1.1, hbgm.1.2, h1⟩)
    rcases hInv.closure b hbgm.1.1 hbgm.1.2 hbgm.2 ih hb0 with hstk | hcl
    · exact absurd hstk (List.not_mem_nil b)
    · exact hcl c h2.1 h2.2

/-- At termination the newly visited indices are exactly the images of the
seed's component. -/
theorem fill_terminal (mask : ℕ → Bool) (w h : ℕ) (s : ℕ × ℕ)
    (v0 : Finset ℕ) (visited : Finset ℕ) (acc : ℕ)
    (hs1 : s.1 < w) (hs2 : s.2 < h) (hsm : mask (cellIdx w s) = true)
    (hdisj : ∀ t ∈ component mask w h s, cellIdx w t ∉ v0)
    (hInv : FillInv mask w h s v0 visited [] acc) :
    visited \ v0 = (component mask w h s).image (cellIdx w) := by
  ext j
  constructor
  · intro hj
    rw [Finset.mem_sdiff] at hj
    obtain ⟨p, hg, hm, hr, rfl⟩ := hInv.sound j hj.1 hj.2
    exact Finset.mem_image.2 ⟨p, mem_component.2 ⟨hg.1, hg.2, hr⟩, rfl⟩
  · intro hj
    obtain ⟨t, ht, rfl⟩ := Finset.mem_image.1 hj
    rw [Finset.mem_sdiff]
    exact ⟨fill_visited_of_reach mask w h s v0 visited acc hs1 hs2 hsm hdisj hInv t
      (mem_component.1 ht).2.2, hdisj t ht⟩

/-- Flat indexing is injective on a component. -/
theorem component_image_card (mask : ℕ → Bool) (w h : ℕ) (s : ℕ × ℕ) :
    ((component mask w h s).image (cellIdx w)).card = (component mask w h s).card := by
  apply Finset.card_image_of_injOn
  intro a ha b hb he
  exact cellIdx_inj (mem_component.1 ha).1 (mem_component.1 hb).1 he

/-- A complete run of the source's fill from a fresh masked in-bounds seed
visits exactly the seed's component and counts its size. -/
theorem floodLoop_component (mask : ℕ → Bool) (w h : ℕ) (s : ℕ × ℕ) (v0 : Finset ℕ)
    (hs1 : s.1 < w) (hs2 : s.2 < h) (hsm : mask (cellIdx w s) = true)
    (hdisj : ∀ t ∈ component mask w h s, cellIdx w t ∉ v0) :
    floodLoop mask w h (w * h + 1) (insert (cellIdx w s) v0) [s] 0 =
      ((component mask w h s).card, v0 ∪ (component mask w h s).image (cellIdx w)) := by
  have hs0 : cellIdx w s ∉ v0 := hdisj s (self_mem_component hs1 hs2)
  have hsd : insert (cellIdx w s) v0 \ v0 = {cellIdx w s} := by
    ext j
    simp only [Finset.mem_sdiff, Finset.mem_insert, Finset.mem_singleton]
    constructor
    · rintro ⟨rfl | hj, hj0⟩
      · rfl
      · exact absurd hj hj0
    · rintro rfl
      exact ⟨Or.inl rfl, hs0⟩
  have hInv0 : FillInv mask w h s v0 (insert (cellIdx w s) v0) [s] 0 := by
    refine ⟨?_, ?_, ?_, ?_, ?_, ?_, ?_, ?_, ?_, ?_⟩
    · intro p hp
      rw [List.mem_singleton] at hp
      subst hp
      exact ⟨hs1, hs2⟩
    · intro p hp
      rw [List.mem_singleton] at hp
      subst hp
      exact hsm
    · intro p hp
      rw [List.mem_singleton] at hp
      subst hp
      exact Finset.mem_insert_self _ _
    · intro p hp
      rw [List.mem_singleton] at hp
      subst hp
      exact Relation.ReflTransGen.refl
    · simp
    · exact Finset.subset_insert _ _
    · exact Finset.mem_insert_self _ _
    · intro j hj hj0
      rcases Finset.mem_insert.1 hj with rfl | hj
      · exact ⟨s, ⟨hs1, hs2⟩, hsm, Relation.ReflTransGen.refl, rfl⟩
      · exact absurd hj hj0
    · intro p hp1 hp2 hpm hpv hpv0
      left
      rcases Finset.mem_insert.1 hpv with he | hv
      · rw [List.mem_singleton]
        exact cellIdx_inj hp1 hs1 he
      · exact absurd hv hpv0
    · rw [hsd]
      simp
  have hfuel : ([s] : List (ℕ × ℕ)).length +
      (maskedIdx mask w h \ insert (cellIdx w s) v0).card ≤ w * h + 1 := by
    have h1 : (maskedIdx mask w h \ insert (cellIdx w s) v0).card ≤
        (maskedIdx mask w h).card := Finset.card_le_card Finset.sdiff_subset
    have h2 : (maskedIdx mask w h).card ≤ w * h := by
      calc (maskedIdx mask w h).card ≤ (Finset.range (w * h)).card :=
            Finset.card_le_card (Finset.filter_subset _ _)
        _ = w * h := Finset.card_range _
    simp only [List.length_singleton]
    omega
  obtain ⟨vfin, heq, hInv'⟩ :=
    floodLoop_run mask w h s v0 (w * h + 1) _ _ _ hInv0 hfuel
  have hterm := fill_terminal mask w h s v0 vfin _ hs1 hs2 hsm hdisj hInv'
  rw [heq, hterm, component_image_card]
  have hv' : vfin = v0 ∪ (component mask w h s).image (cellIdx w) := by
    rw [← hterm]
    have hsub : v0 ⊆ vfin := hInv'.sub
    rw [Finset.union_sdiff_of_subset hsub]
  rw [hv']



/-- The nested row/column loops equal one fold over the row-major scan. -/
theorem foldl_scan_eq (mask : ℕ → Bool) (w h : ℕ) :
    ∀ (L : List ℕ) (init : Finset ℕ × ℕ),
      L.foldl (fun st y => (List.range w).foldl (fun st x => seedStep mask w h st x y) st)
          init =
        (L.flatMap fun y => (List.range w).map fun x => (x, y)).foldl
          (fun st p => seedStep mask w h st p.1 p.2) init := by
  intro L
  induction L with
  | nil => intro init; simp
  | cons y L ih =>
    intro init
    rw [List.foldl_cons, List.flatMap_cons, List.foldl_append, List.foldl_map, ih]

/-- The scan enumerates exactly the in-bounds cells. -/
theorem mem_scanCells {w h : ℕ} (p : ℕ × ℕ) :
    p ∈ scanCells w h ↔ p.1 < w ∧ p.2 < h := by
  obtain ⟨a, b⟩ := p
  unfold scanCells
  simp only [List.mem_flatMap, List.mem_map, List.mem_range, Prod.mk.injEq]
  constructor
  · rintro ⟨y, hy, x, hx, rfl, rfl⟩
    exact ⟨hx, hy⟩
  · rintro ⟨h1, h2⟩
    exact ⟨b, h2, a, h1, rfl, rfl⟩

/-- The source's largest-component pass as a single fold over the scan. -/
theorem largestComp_eq_scan (mask : ℕ → Bool) (w h : ℕ) :
    largestComp mask w h =
      ((scanCells w h).foldl (fun st p => seedStep mask w h st p.1 p.2) (∅, 0)).2 := by
  unfold largestComp scanCells
  rw [foldl_scan_eq]

/-- The empty scan prefix. -/
theorem outerInv_nil (mask : ℕ → Bool) (w h : ℕ) : OuterInv mask w h [] (∅, 0) := by
  refine ⟨?_, ?_⟩
  · intro j
    simp
  · simp

/-- Processing one more scanned cell preserves the outer invariant. -/
theorem seedStep_inv (mask : ℕ → Bool) (w h : ℕ) (P : List (ℕ × ℕ))
    (st : Finset ℕ × ℕ) (x y : ℕ) (hx : x < w) (hy : y < h)
    (hPg : ∀ p ∈ P, p.1 < w ∧ p.2 < h)
    (hinv : OuterInv mask w h P st) :
    OuterInv mask w h (P ++ [(x, y)]) (seedStep mask w h st x y) := by
  obtain ⟨hmem, hsup⟩ := hinv
  by_cases hm : mask (cellIdx w (x, y)) = true
  case neg =>
    have hs : seedStep mask w h st x y = st := by
      unfold seedStep
      rw [if_neg (fun hc => hm hc.1)]
    rw [hs]
    refine ⟨?_, ?_⟩
    · intro j
      rw [hmem j]
      constructor
      · rintro ⟨p, hp, hpm, hj⟩
        exact ⟨p, List.mem_append.2 (Or.inl hp), hpm, hj⟩
      · rintro ⟨p, hp, hpm, hj⟩
        rcases List.mem_append.1 hp with hp | hp
        · exact ⟨p, hp, hpm, hj⟩
        · rw [List.mem_singleton] at hp
          subst hp
          exact absurd hpm hm
    · rw [hsup]
      congr 1
      rw [List.toFinset_append, Finset.filter_union]
      have h1 : (([(x, y)] : List (ℕ × ℕ)).toFinset.filter
          fun p => mask (cellIdx w p) = true) = ∅ := by
        rw [Finset.filter_eq_empty_iff]
        intro p hp
        rw [List.mem_toFinset, List.mem_singleton] at hp
        subst hp
        exact hm
      rw [h1, Finset.union_empty]
  case pos =>
    by_cases hv : cellIdx w (x, y) ∈ st.1
    · have hs : seedStep mask w h st x y = st := by
        unfold seedStep
        rw [if_neg (fun hc => hc.2 hv)]
      rw [hs]
      obtain ⟨p', hp', hpm', hj'⟩ := (hmem _).1 hv
      obtain ⟨t', ht', he'⟩ := Finset.mem_image.1 hj'
      have ht'g := mem_component.1 ht'
      have ht_eq : t' = (x, y) := cellIdx_inj ht'g.1 hx he'
      subst ht_eq
      have hpg' := hPg p' hp'
      have hcompeq : component mask w h p' = component mask w h (x, y) :=
        component_eq_of_reach hpg'.1 hpg'.2 hpm' ht'g.2.2
      refine ⟨?_, ?_⟩
      · intro j
        rw [hmem j]
        constructor
        · rintro ⟨p, hp, hpm, hj⟩
          exact ⟨p, List.mem_append.2 (Or.inl hp), hpm, hj⟩
        · rintro ⟨p, hp, hpm, hj⟩
          rcases List.mem_append.1 hp with hp | hp
          · exact ⟨p, hp, hpm, hj⟩
          · rw [List.mem_singleton] at hp
            subst hp
            exact ⟨p', hp', hpm', hcompeq ▸ hj⟩
      · rw [List.toFinset_append, Finset.filter_union, Finset.sup_union]
        have h1 : (([(x, y)] : List (ℕ × ℕ)).toFinset.filter
            fun p => mask (cellIdx w p) = true) = {(x, y)} := by
          ext p
          rw [Finset.mem_filter, List.mem_toFinset, List.mem_singleton, Finset.mem_singleton]
          constructor
          · rintro ⟨hp, _⟩
            exact hp
          · rintro rfl
            exact ⟨rfl, hm⟩
        rw [h1, Finset.sup_singleton, hsup]
        have hle : (component mask w h (x, y)).card ≤
            (P.toFinset.filter fun p => mask (cellIdx w p) = true).sup
              fun p => (component mask w h p).card := by
          rw [← hcompeq]
          exact @Finset.le_sup ℕ (ℕ × ℕ) _ _ _ (fun p => (component mask w h p).card) p'
            (Finset.mem_filter.2 ⟨List.mem_toFinset.2 hp', hpm'⟩)
        exact (sup_eq_left.2 hle).symm
    · have hdisj : ∀ t ∈ component mask w h (x, y), cellIdx w t ∉ st.1 := by
        intro t ht hvt
        obtain ⟨p', hp', hpm', hj'⟩ := (hmem _).1 hvt
        obtain ⟨t', ht', he'⟩ := Finset.mem_image.1 hj'
        have htg := mem_component.1 ht
        have ht'g := mem_component.1 ht'
        have ht_eq : t' = t := cellIdx_inj ht'g.1 htg.1 he'
        have ht2 : t ∈ component mask w h p' := ht_eq ▸ ht'
        have hpg' := hPg p' hp'
        have hc1 : component mask w h p' = component mask w h t :=
          component_eq_of_reach hpg'.1 hpg'.2 hpm' (mem_component.1 ht2).2.2
        have hc2 : component mask w h (x, y) = component mask w h t :=
          component_eq_of_reach hx hy hm htg.2.2
        have hxy_mem : (x, y) ∈ component mask w h p' := by
          rw [hc1, ← hc2]
          exact self_mem_component hx hy
        exact hv ((hmem _).2 ⟨p', hp', hpm', Finset.mem_image.2 ⟨(x, y), hxy_mem, rfl⟩⟩)
      have hstep : seedStep mask w h st x y =
          (st.1 ∪ (component mask w h (x, y)).image (cellIdx w),
            max st.2 (component mask w h (x, y)).card) := by
        unfold seedStep
        rw [if_pos ⟨hm, hv⟩, floodLoop_component mask w h (x, y) st.1 hx hy hm hdisj]
      rw [hstep]
      refine ⟨?_, ?_⟩
      · intro j
        constructor
        · intro hj
          rcases Finset.mem_union.1 hj with hj | hj
          · obtain ⟨p, hp, hpm, hji⟩ := (hmem j).1 hj
            exact ⟨p, List.mem_append.2 (Or.inl hp), hpm, hji⟩
          · exact ⟨(x, y), List.mem_append.2 (Or.inr (List.mem_singleton.2 rfl)), hm, hj⟩
        · rintro ⟨p, hp, hpm, hj⟩
          rcases List.mem_append.1 hp with hp | hp
          · exact Finset.mem_union_left _ ((hmem j).2 ⟨p, hp, hpm, hj⟩)
          · rw [List.mem_singleton] at hp
            subst hp
            exact Finset.mem_union_right _ hj
      · show max st.2 _ = _
        rw [List.toFinset_append, Finset.filter_union, Finset.sup_union]
        have h1 : (([(x, y)] : List (ℕ × ℕ)).toFinset.filter
            fun p => mask (cellIdx w p) = true) = {(x, y)} := by
          ext p
          rw [Finset.mem_filter, List.mem_toFinset, List.mem_singleton, Finset.mem_singleton]
          constructor
          · rintro ⟨hp, _⟩
            exact hp
          · rintro rfl
            exact ⟨rfl, hm⟩
        rw [h1, Finset.sup_singleton, hsup]

/-- Folding the scan over any suffix preserves the outer invariant. -/
theorem foldl_seed_inv (mask : ℕ → Bool) (w h : ℕ) :
    ∀ (L P : List (ℕ × ℕ)) (st : Finset ℕ × ℕ),
      (∀ p ∈ L, p.1 < w ∧ p.2 < h) → (∀ p ∈ P, p.1 < w ∧ p.2 < h) →
      OuterInv mask w h P st →
      OuterInv mask w h (P ++ L)
        (L.foldl (fun st p => seedStep mask w h st p.1 p.2) st) := by
  intro L
  induction L with
  | nil =>
    intro P st _ _ hinv
    simpa using hinv
  | cons c L ih =>
    intro P st hL hP hinv
    rw [List.foldl_cons]
    have hc := hL c (List.mem_cons_self c L)
    have h1 : OuterInv mask w h (P ++ [(c.1, c.2)]) (seedStep mask w h st c.1 c.2) :=
      seedStep_inv mask w h P st c.1 c.2 hc.1 hc.2 hP hinv
    have h2 := ih (P ++ [(c.1, c.2)]) (seedStep mask w h st c.1 c.2)
      (fun p hp => hL p (List.mem_cons_of_mem c hp))
      (fun p hp => by
        rcases List.mem_append.1 hp with hp | hp
        · exact hP p hp
        · rw [List.mem_singleton] at hp
          subst hp
          exact hc)
      h1
    simpa [List.append_assoc, Prod.mk.eta] using h2

/-- Claim C3's main content: the source's flood-fill pass computes exactly
the size of the largest 4-connected masked region, for every mask and all
grid dimensions. -/
theorem largestComp_eq_spec (mask : ℕ → Bool) (w h : ℕ) :
    largestComp mask w h = specLargestComponent mask w h := by
  rw [largestComp_eq_scan]
  have hgood : ∀ p ∈ scanCells w h, p.1 < w ∧ p.2 < h :=
    fun p hp => (mem_scanCells p).1 hp
  have hinv := foldl_seed_inv mask w h (scanCells w h) [] (∅, 0) hgood
    (by intro p hp; simp at hp) (outerInv_nil mask w h)
  rw [List.nil_append] at hinv
  obtain ⟨hmem, hsup⟩ := hinv
  rw [hsup]
  have hts : (scanCells w h).toFinset = gridCells w h := by
    ext p
    rw [List.mem_toFinset, mem_scanCells]
    unfold gridCells
    rw [Finset.mem_product, Finset.mem_range, Finset.mem_range]
  rw [hts]
  rfl



/-- The pipeline's guarded largest-component value also equals the spec:
when no pixel is masked there is no component and both sides are zero. -/
theorem largestCompOf_eq_spec (g : PixelGrid) :
    largestCompOf g = specLargestComponent (greenMask g) g.width g.height := by
  unfold largestCompOf
  by_cases hg : 0 < greenCount g
  · rw [if_pos hg]
    exact largestComp_eq_spec _ _ _
  · rw [if_neg hg]
    have hempty : ((gridCells g.width g.height).filter
        fun p => greenMask g (cellIdx g.width p) = true) = ∅ := by
      rw [Finset.filter_eq_empty_iff]
      intro p hp
      unfold gridCells at hp
      rw [Finset.mem_product, Finset.mem_range, Finset.mem_range] at hp
      intro hb
      apply hg
      have hlt : cellIdx g.width p < area g := by
        have := cellIdx_lt hp.1 hp.2
        unfold area
        exact this
      have hmem : cellIdx g.width p ∈
          (Finset.range (area g)).filter fun i => greenMask g i = true :=
        Finset.mem_filter.2 ⟨Finset.mem_range.2 hlt, hb⟩
      exact Finset.card_pos.2 ⟨_, hmem⟩
    unfold specLargestComponent
    rw [hempty, Finset.sup_empty]
    rfl

/-- Reachability cannot leave a set closed under masked neighbor steps. -/
theorem reach_stays (mask : ℕ → Bool) (w h : ℕ) (R : ℕ × ℕ → Prop)
    (hclosed : ∀ p q : ℕ × ℕ, R p → q ∈ nbrs w h p.1 p.2 →
      mask (cellIdx w q) = true → R q)
    {s t : ℕ × ℕ} (hs : R s) (hr : Reach mask w h s t) : R t := by
  induction hr with
  | refl => exact hs
  | @tail b c h1 h2 ih => exact hclosed b c ih h2.1 h2.2

/-- Walking right along a masked row segment. -/
theorem reach_right (mask : ℕ → Bool) (w h y : ℕ) (hy : y < h) :
    ∀ (d x1 : ℕ), x1 + d < w →
      (∀ x, x1 ≤ x → x ≤ x1 + d → mask (cellIdx w (x, y)) = true) →
      Reach mask w h (x1, y) (x1 + d, y) := by
  intro d
  induction d with
  | zero =>
    intro x1 _ _
    exact Relation.ReflTransGen.refl
  | succ d ih =>
    intro x1 hlt hm
    have hr := ih x1 (by omega) fun x ha hb => hm x ha (by omega)
    refine Relation.ReflTransGen.tail hr ⟨?_, hm (x1 + d + 1) (by omega) (by omega)⟩
    rw [mem_nbrs (by omega) hy]
    exact ⟨by omega, hy, Or.inl ⟨rfl, Or.inr rfl⟩⟩

/-- Walking down along a masked column segment. -/
theorem reach_down (mask : ℕ → Bool) (w h x : ℕ) (hx : x < w) :
    ∀ (d y1 : ℕ), y1 + d < h →
      (∀ y, y1 ≤ y → y ≤ y1 + d → mask (cellIdx w (x, y)) = true) →
      Reach mask w h (x, y1) (x, y1 + d) := by
  intro d
  induction d with
  | zero =>
    intro y1 _ _
    exact Relation.ReflTransGen.refl
  | succ d ih =>
    intro y1 hlt hm
    have hr := ih y1 (by omega) fun y ha hb => hm y ha (by omega)
    refine Relation.ReflTransGen.tail hr ⟨?_, hm (y1 + d + 1) (by omega) (by omega)⟩
    rw [mem_nbrs hx (by omega)]
    exact ⟨hx, by omega, Or.inr ⟨rfl, Or.inr rfl⟩⟩

/-- Walking either way along a masked row segment. -/
theorem reach_horiz (mask : ℕ → Bool) (w h y : ℕ) (hy : y < h) (a b : ℕ)
    (ha : a < w) (hb : b < w)
    (hm : ∀ x, min a b ≤ x → x ≤ max a b → mask (cellIdx w (x, y)) = true) :
    Reach mask w h (a, y) (b, y) := by
  rcases le_total a b with hab | hab
  · have hr := reach_right mask w h y hy (b - a) a (by omega)
      fun x h1 h2 => hm x (by omega) (by omega)
    have he : a + (b - a) = b := by omega
    rw [he] at hr
    exact hr
  · have hr := reach_right mask w h y hy (a - b) b (by omega)
      fun x h1 h2 => hm x (by omega) (by omega)
    have he : b + (a - b) = a := by omega
    rw [he] at hr
    exact reach_symm hb hy (hm b (by omega) (by omega)) hr

/-- Walking either way along a masked column segment. -/
theorem reach_vert (mask : ℕ → Bool) (w h x : ℕ) (hx : x < w) (a b : ℕ)
    (ha : a < h) (hb : b < h)
    (hm : ∀ y, min a b ≤ y → y ≤ max a b → mask (cellIdx w (x, y)) = true) :
    Reach mask w h (x, a) (x, b) := by
  rcases le_total a b with hab | hab
  · have hr := reach_down mask w h x hx (b - a) a (by omega)
      fun y h1 h2 => hm y (by omega) (by omega)
    have he : a + (b - a) = b := by omega
    rw [he] at hr
    exact hr
  · have hr := reach_down mask w h x hx (a - b) b (by omega)
      fun y h1 h2 => hm y (by omega) (by omega)
    have he : b + (a - b) = a := by omega
    rw [he] at hr
    exact reach_symm hx hb (hm b (by omega) (by omega)) hr

/-- Any two cells of a fully masked rectangle are connected (row move, then
column move). -/
theorem reach_rect (mask : ℕ → Bool) (w h x0 x1 y0 y1 : ℕ)
    (hxw : x1 ≤ w) (hyh : y1 ≤ h)
    (hm : ∀ u v : ℕ, x0 ≤ u → u < x1 → y0 ≤ v → v < y1 →
      mask (cellIdx w (u, v)) = true)
    (a b c d : ℕ) (ha1 : x0 ≤ a) (ha2 : a < x1) (hb1 : y0 ≤ b) (hb2 : b < y1)
    (hc1 : x0 ≤ c) (hc2 : c < x1) (hd1 : y0 ≤ d) (hd2 : d < y1) :
    Reach mask w h (a, b) (c, d) := by
  have h1 : Reach mask w h (a, b) (c, b) :=
    reach_horiz mask w h b (by omega) a c (by omega) (by omega)
      fun x hx1 hx2 => hm x b (by omega) (by omega) hb1 hb2
  have h2 : Reach mask w h (c, b) (c, d) :=
    reach_vert mask w h c (by omega) b d (by omega) (by omega)
      fun v hv1 hv2 => hm c v hc1 hc2 (by omega) (by omega)
  exact Relation.ReflTransGen.trans h1 h2

/-- When the mask is exactly a rectangle, every component seeded inside the
rectangle is the whole rectangle. -/
theorem component_rect (mask : ℕ → Bool) (w h x0 x1 y0 y1 : ℕ)
    (hxw : x1 ≤ w) (hyh : y1 ≤ h)
    (hiff : ∀ u v : ℕ, u < w → v < h →
      (mask (cellIdx w (u, v)) = true ↔ x0 ≤ u ∧ u < x1 ∧ y0 ≤ v ∧ v < y1))
    (s : ℕ × ℕ) (hs1 : x0 ≤ s.1) (hs2 : s.1 < x1) (hs3 : y0 ≤ s.2) (hs4 : s.2 < y1) :
    component mask w h s = Finset.Ico x0 x1 ×ˢ Finset.Ico y0 y1 := by
  have hsg1 : s.1 < w := by omega
  have hsg2 : s.2 < h := by omega
  ext t
  rw [mem_component, Finset.mem_product, Finset.mem_Ico, Finset.mem_Ico]
  constructor
  · rintro ⟨ht1, ht2, htr⟩
    rcases reach_good_masked hsg1 hsg2 htr with rfl | ⟨u1, u2, um⟩
    · exact ⟨⟨hs1, hs2⟩, hs3, hs4⟩
    · have hin := (hiff t.1 t.2 u1 u2).1 um
      exact ⟨⟨hin.1, hin.2.1⟩, hin.2.2.1, hin.2.2.2⟩
  · rintro ⟨⟨h1, h2⟩, h3, h4⟩
    refine ⟨by omega, by omega, ?_⟩
    have hr := reach_rect mask w h x0 x1 y0 y1 hxw hyh
      (fun u v hu1 hu2 hv1 hv2 => (hiff u v (by omega) (by omega)).2 ⟨hu1, hu2, hv1, hv2⟩)
      s.1 s.2 t.1 t.2 hs1 hs2 hs3 hs4 h1 h2 h3 h4
    exact hr

/-- The largest component of a purely rectangular mask is the rectangle's
area. -/
theorem specLargest_rect (mask : ℕ → Bool) (w h x0 x1 y0 y1 : ℕ)
    (hxw : x1 ≤ w) (hyh : y1 ≤ h) (hx01 : x0 < x1) (hy01 : y0 < y1)
    (hiff : ∀ u v : ℕ, u < w → v < h →
      (mask (cellIdx w (u, v)) = true ↔ x0 ≤ u ∧ u < x1 ∧ y0 ≤ v ∧ v < y1)) :
    specLargestComponent mask w h = (x1 - x0) * (y1 - y0) := by
  unfold specLargestComponent
  have hmg : ((gridCells w h).filter fun p => mask (cellIdx w p) = true) =
      Finset.Ico x0 x1 ×ˢ Finset.Ico y0 y1 := by
    ext p
    unfold gridCells
    rw [Finset.mem_filter, Finset.mem_product, Finset.mem_product, Finset.mem_range,
      Finset.mem_range, Finset.mem_Ico, Finset.mem_Ico]
    constructor
    · rintro ⟨⟨hp1, hp2⟩, hpm⟩
      have hin := (hiff p.1 p.2 hp1 hp2).1 hpm
      exact ⟨⟨hin.1, hin.2.1⟩, hin.2.2.1, hin.2.2.2⟩
    · rintro ⟨⟨h1, h2⟩, h3, h4⟩
      exact ⟨⟨by omega, by omega⟩,
        (hiff p.1 p.2 (by omega) (by omega)).2 ⟨h1, h2, h3, h4⟩⟩
  rw [hmg]
  have hcongr : ∀ p ∈ Finset.Ico x0 x1 ×ˢ Finset.Ico y0 y1,
      (component mask w h p).card = (x1 - x0) * (y1 - y0) := by
    intro p hp
    rw [Finset.mem_product, Finset.mem_Ico, Finset.mem_Ico] at hp
    rw [component_rect mask w h x0 x1 y0 y1 hxw hyh hiff p hp.1.1 hp.1.2 hp.2.1 hp.2.2]
    rw [Finset.card_product, Nat.card_Ico, Nat.card_Ico]
  have hne : (Finset.Ico x0 x1 ×ˢ Finset.Ico y0 y1).Nonempty := by
    refine ⟨(x0, y0), ?_⟩
    rw [Finset.mem_product, Finset.mem_Ico, Finset.mem_Ico]
    exact ⟨⟨le_refl _, hx01⟩, le_refl _, hy01⟩
  rw [Finset.sup_congr rfl hcongr, Finset.sup_const hne]



section PixelFacts

attribute [local semireducible] Rat.mul Rat.add Rat.sub Rat.inv Rat.ofScientific

/-- RGB(60,160,60) satisfies the greenish predicate. -/
theorem isGreenish_green : isGreenish ⟨60, 160, 60⟩ = true := by decide

/-- RGB(200,30,30) does not satisfy the greenish predicate. -/
theorem isGreenish_red : isGreenish ⟨200, 30, 30⟩ = false := by decide

end PixelFacts

/-- Coordinate characterization of the blob example mask. -/
theorem exBlobMask_char : ∀ u v : ℕ, u < 40 → v < 25 →
    (exBlobMask (cellIdx 40 (u, v)) = true ↔
      ((u < 10 ∧ v < 10) ∨ (15 ≤ u ∧ u < 35 ∧ 2 ≤ v ∧ v < 22))) := by
  intro u v hu hv
  unfold exBlobMask cellIdx
  simp only [Bool.or_eq_true, decide_eq_true_eq]
  omega

/-- Components seeded in the first blob are the first blob. -/
theorem exBlob_comp1 (s : ℕ × ℕ) (hs1 : s.1 < 10) (hs2 : s.2 < 10) :
    component exBlobMask 40 25 s = Finset.Ico 0 10 ×ˢ Finset.Ico 0 10 := by
  ext t
  rw [mem_component, Finset.mem_product, Finset.mem_Ico, Finset.mem_Ico]
  constructor
  · rintro ⟨ht1, ht2, htr⟩
    have hR : t.1 < 10 ∧ t.2 < 10 := by
      refine reach_stays exBlobMask 40 25 (fun p => p.1 < 10 ∧ p.2 < 10) ?_ ⟨hs1, hs2⟩ htr
      intro p q hp hq hqm
      obtain ⟨hq1, hq2, hsh⟩ := (mem_nbrs (by omega) (by omega) q).1 hq
      rcases (exBlobMask_char q.1 q.2 hq1 hq2).1 hqm with hin | hin
      · exact hin
      · omega
    omega
  · rintro ⟨⟨h1, h2⟩, h3, h4⟩
    refine ⟨by omega, by omega, ?_⟩
    exact reach_rect exBlobMask 40 25 0 10 0 10 (by omega) (by omega)
      (fun u v hu1 hu2 hv1 hv2 =>
        (exBlobMask_char u v (by omega) (by omega)).2 (Or.inl ⟨hu2, hv2⟩))
      s.1 s.2 t.1 t.2 (by omega) (by omega) (by omega) (by omega)
      (by omega) (by omega) (by omega) (by omega)

/-- Components seeded in the second blob are the second blob. -/
theorem exBlob_comp2 (s : ℕ × ℕ) (hs1 : 15 ≤ s.1) (hs2 : s.1 < 35)
    (hs3 : 2 ≤ s.2) (hs4 : s.2 < 22) :
    component exBlobMask 40 25 s = Finset.Ico 15 35 ×ˢ Finset.Ico 2 22 := by
  ext t
  rw [mem_component, Finset.mem_product, Finset.mem_Ico, Finset.mem_Ico]
  constructor
  · rintro ⟨ht1, ht2, htr⟩
    have hR : 15 ≤ t.1 ∧ t.1 < 35 ∧ 2 ≤ t.2 ∧ t.2 < 22 := by
      refine reach_stays exBlobMask 40 25
        (fun p => 15 ≤ p.1 ∧ p.1 < 35 ∧ 2 ≤ p.2 ∧ p.2 < 22) ?_ ⟨hs1, hs2, hs3, hs4⟩ htr
      intro p q hp hq hqm
      obtain ⟨hq1, hq2, hsh⟩ := (mem_nbrs (by omega) (by omega) q).1 hq
      rcases (exBlobMask_char q.1 q.2 hq1 hq2).1 hqm with hin | hin
      · omega
      · exact hin
    omega
  · rintro ⟨⟨h1, h2⟩, h3, h4⟩
    refine ⟨by omega, by omega, ?_⟩
    exact reach_rect exBlobMask 40 25 15 35 2 22 (by omega) (by omega)
      (fun u v hu1 hu2 hv1 hv2 =>
        (exBlobMask_char u v (by omega) (by omega)).2
          (Or.inr ⟨hu1, hu2, hv1, hv2⟩))
      s.1 s.2 t.1 t.2 hs1 hs2 hs3 hs4 h1 h2 h3 h4

/-- The largest 4-connected region of the blob example has 400 pixels. -/
theorem specLargest_exBlob : specLargestComponent exBlobMask 40 25 = 400 := by
  unfold specLargestComponent
  have hmg : ((gridCells 40 25).filter fun p => exBlobMask (cellIdx 40 p) = true) =
      (Finset.Ico 0 10 ×ˢ Finset.Ico 0 10) ∪ (Finset.Ico 15 35 ×ˢ Finset.Ico 2 22) := by
    ext p
    unfold gridCells
    rw [Finset.mem_filter, Finset.mem_union, Finset.mem_product, Finset.mem_product,
      Finset.mem_product, Finset.mem_range, Finset.mem_range, Finset.mem_Ico,
      Finset.mem_Ico, Finset.mem_Ico, Finset.mem_Ico]
    constructor
    · rintro ⟨⟨h1, h2⟩, hm⟩
      rcases (exBlobMask_char p.1 p.2 h1 h2).1 hm with hin | hin
      · exact Or.inl ⟨⟨by omega, by omega⟩, by omega, by omega⟩
      · exact Or.inr ⟨⟨by omega, by omega⟩, by omega, by omega⟩
    · rintro (⟨⟨h1, h2⟩, h3, h4⟩ | ⟨⟨h1, h2⟩, h3, h4⟩)
      · exact ⟨⟨by omega, by omega⟩,
          (exBlobMask_char p.1 p.2 (by omega) (by omega)).2 (Or.inl ⟨by omega, by omega⟩)⟩
      · exact ⟨⟨by omega, by omega⟩,
          (exBlobMask_char p.1 p.2 (by omega) (by omega)).2
            (Or.inr ⟨by omega, by omega, by omega, by omega⟩)⟩
  rw [hmg, Finset.sup_union]
  have hsup1 : (Finset.Ico 0 10 ×ˢ Finset.Ico 0 10).sup
      (fun s => (component exBlobMask 40 25 s).card) = 100 := by
    have hcongr : ∀ p ∈ Finset.Ico 0 10 ×ˢ Finset.Ico 0 10,
        (component exBlobMask 40 25 p).card = 100 := by
      intro p hp
      rw [Finset.mem_product, Finset.mem_Ico, Finset.mem_Ico] at hp
      rw [exBlob_comp1 p (by omega) (by omega), Finset.card_product, Nat.card_Ico]
    have hne : (Finset.Ico 0 10 ×ˢ Finset.Ico 0 10).Nonempty := by
      refine ⟨(0, 0), ?_⟩
      simp
    rw [Finset.sup_congr rfl hcongr, Finset.sup_const hne]
  have hsup2 : (Finset.Ico 15 35 ×ˢ Finset.Ico 2 22).sup
      (fun s => (component exBlobMask 40 25 s).card) = 400 := by
    have hcongr : ∀ p ∈ Finset.Ico 15 35 ×ˢ Finset.Ico 2 22,
        (component exBlobMask 40 25 p).card = 400 := by
      intro p hp
      rw [Finset.mem_product, Finset.mem_Ico, Finset.mem_Ico] at hp
      rw [exBlob_comp2 p (by omega) (by omega) (by omega) (by omega),
        Finset.card_product, Nat.card_Ico, Nat.card_Ico]
    have hne : (Finset.Ico 15 35 ×ˢ Finset.Ico 2 22).Nonempty := by
      refine ⟨(15, 2), ?_⟩
      simp
    rw [Finset.sup_congr rfl hcongr, Finset.sup_const hne]
  rw [hsup1, hsup2]
  decide



/-- The green mask of the block grid holds exactly on the first 5000 flat
indices (the top 50 rows). -/
theorem greenMask_block (j : ℕ) : greenMask blockGrid j = true ↔ j < 5000 := by
  unfold greenMask blockGrid
  by_cases hc : j < 5000
  · simp [hc, isGreenish_green]
  · simp [hc, isGreenish_red]

/-- The block grid has exactly 5000 masked pixels. -/
theorem greenCount_block : greenCount blockGrid = 5000 := by
  unfold greenCount
  have hset : ((Finset.range (area blockGrid)).filter fun i => greenMask blockGrid i = true)
      = Finset.range 5000 := by
    ext i
    rw [Finset.mem_filter, Finset.mem_range, Finset.mem_range, greenMask_block]
    have harea : area blockGrid = 10000 := rfl
    omega
  rw [hset, Finset.card_range]

/-- The block grid's green ratio is one half. -/
theorem greenRatio_block : greenRatio blockGrid = 1 / 2 := by
  unfold greenRatio
  rw [greenCount_block]
  have harea : area blockGrid = 10000 := rfl
  rw [harea]
  norm_num

/-- The block grid's largest green component is the full 100×50 block. -/
theorem largestComp_block : largestCompOf blockGrid = 5000 := by
  rw [largestCompOf_eq_spec]
  show specLargestComponent (greenMask blockGrid) 100 100 = 5000
  have h := specLargest_rect (greenMask blockGrid) 100 100 0 100 0 50
    (by omega) (by omega) (by omega) (by omega) ?_
  · simpa using h
  · intro u v hu hv
    rw [greenMask_block]
    show v * 100 + u < 5000 ↔ _
    omega

/-- The block grid's largest-component ratio is one half. -/
theorem largestCompRatio_block : largestCompRatio blockGrid = 1 / 2 := by
  unfold largestCompRatio
  rw [largestComp_block]
  have harea : area blockGrid = 10000 := rfl
  rw [harea]
  norm_num

/-- All pixels of the solid green grid are masked. -/
theorem greenCount_const (w h : ℕ) :
    greenCount (constGrid w h ⟨60, 160, 60⟩) = w * h := by
  unfold greenCount
  have hall : ∀ i ∈ Finset.range (area (constGrid w h ⟨60, 160, 60⟩)),
      greenMask (constGrid w h ⟨60, 160, 60⟩) i = true := by
    intro i _
    exact isGreenish_green
  rw [Finset.filter_true_of_mem hall, Finset.card_range]
  rfl

/-- The solid green grid's green ratio is 1 (for a nonempty grid). -/
theorem greenRatio_const (w h : ℕ) (hpos : 0 < w * h) :
    greenRatio (constGrid w h ⟨60, 160, 60⟩) = 1 := by
  unfold greenRatio
  rw [greenCount_const]
  have harea : area (constGrid w h ⟨60, 160, 60⟩) = w * h := rfl
  rw [harea]
  exact div_self (by
    intro hz
    rw [Nat.cast_eq_zero] at hz
    omega)

/-- The solid green grid is one single component covering everything. -/
theorem largestComp_const (w h : ℕ) (hw : 0 < w) (hh : 0 < h) :
    largestCompOf (constGrid w h ⟨60, 160, 60⟩) = w * h := by
  rw [largestCompOf_eq_spec]
  show specLargestComponent (greenMask (constGrid w h ⟨60, 160, 60⟩)) w h = w * h
  have h1 := specLargest_rect (greenMask (constGrid w h ⟨60, 160, 60⟩)) w h 0 w 0 h
    (le_refl w) (le_refl h) hw hh ?_
  · simpa using h1
  · intro u v hu hv
    constructor
    · intro _
      omega
    · intro _
      exact isGreenish_green

/-- The solid green grid's largest-component ratio is 1. -/
theorem largestCompRatio_const (w h : ℕ) (hw : 0 < w) (hh : 0 < h) :
    largestCompRatio (constGrid w h ⟨60, 160, 60⟩) = 1 := by
  unfold largestCompRatio
  rw [largestComp_const w h hw hh]
  have harea : area (constGrid w h ⟨60, 160, 60⟩) = w * h := rfl
  rw [harea]
  exact div_self (by
    intro hz
    rw [Nat.cast_eq_zero] at hz
    have := Nat.mul_pos hw hh
    omega)

/-- C3: the component-labeling pass computes the largest 4-connected region
size for every mask and all dimensions (a traversal-order-free quantity,
since `specLargestComponent` has no notion of traversal); the pipeline's
guarded value agrees; and on the concrete two-blob 40×25 example the result
is 400 pixels, ratio 400/1000 = 2/5 (not 0.5). -/
theorem c3_component_labeling :
    (∀ (mask : ℕ → Bool) (w h : ℕ),
        largestComp mask w h = specLargestComponent mask w h) ∧
      (∀ g : PixelGrid,
        largestCompOf g = specLargestComponent (greenMask g) g.width g.height) ∧
      largestComp exBlobMask 40 25 = 400 ∧
      (largestComp exBlobMask 40 25 : ℚ) / ((40 * 25 : ℕ) : ℚ) = 2 / 5 := by
  have hb : largestComp exBlobMask 40 25 = 400 := by
    rw [largestComp_eq_spec, specLargest_exBlob]
  refine ⟨largestComp_eq_spec, largestCompOf_eq_spec, hb, ?_⟩
  rw [hb]
  norm_num

/-- C7 (amended): a solid RGB(60,160,60) grid of at least 8000 pixels whose
aspect ratio passes the Phase 1 guard is rejected via the
single-color-dominance guard (greenRatio = 1 > 0.995); the earlier
greenRatio < 0.18 and largestComponentRatio < 0.12 guards do not fire
(both ratios equal 1). -/
theorem c7_amended (w h : ℕ)
    (hA : 8000 ≤ area (constGrid w h ⟨60, 160, 60⟩))
    (hAsp : ¬ ((7 : ℚ) < (max w h : ℚ) / (max 1 (min w h) : ℚ))) :
    validateDecoded (constGrid w h ⟨60, 160, 60⟩) =
      ⟨false, some "Gambar terlalu dominan satu warna (kemungkinan latar/ilustrasi)."⟩ := by
  have harea : area (constGrid w h ⟨60, 160, 60⟩) = w * h := rfl
  have hwh : 0 < w ∧ 0 < h := by
    have hpos : 0 < area (constGrid w h ⟨60, 160, 60⟩) := by omega
    rw [harea] at hpos
    have hw : 0 < w := by
      rcases Nat.eq_zero_or_pos w with rfl | hp
      · simp at hpos
      · exact hp
    have hh : 0 < h := by
      rcases Nat.eq_zero_or_pos h with rfl | hp
      · simp at hpos
      · exact hp
    exact ⟨hw, hh⟩
  unfold validateDecoded
  rw [if_neg (show ¬ area (constGrid w h ⟨60, 160, 60⟩) < 8000 by omega)]
  have hwidth : (constGrid w h ⟨60, 160, 60⟩).width = w := rfl
  have hheight : (constGrid w h ⟨60, 160, 60⟩).height = h := rfl
  rw [hwidth, hheight, if_neg hAsp]
  have h1 : (summarize (constGrid w h ⟨60, 160, 60⟩)).greenRatio = 1 :=
    greenRatio_const w h (by rw [← harea]; omega)
  have h2 : (summarize (constGrid w h ⟨60, 160, 60⟩)).largestCompRatio = 1 :=
    largestCompRatio_const w h hwh.1 hwh.2
  unfold phase2and3
  rw [h1, h2]
  rw [if_neg (by norm_num), if_neg (by norm_num), if_pos (by norm_num)]

/-! ### Claims -/

/-- C6: for every decoded pixel grid with fewer than 8000 pixels, the
validator rejects with the image-too-small reason, regardless of the pixel
contents (the quantification over `g.data` is unrestricted, and the result
does not depend on it). -/
theorem c6_min_area_guard (g : PixelGrid) (h : area g < 8000) :
    validateDecoded g = ⟨false, some "Gambar terlalu kecil untuk dianalisis."⟩ := by
  unfold validateDecoded
  rw [if_pos h]

/-- C2: whenever some Phase 1 or Phase 2 guard fails, the validator returns
`valid = false` with the reason of the first failing guard in the spec's
order (`guardVerdict`); the Phase 3 soft score plays no part in the result
(the conclusion holds whatever the soft features are). -/
theorem c2_guard_short_circuit (g : PixelGrid) (msg : String)
    (h : guardVerdict g = some msg) :
    validateDecoded g = ⟨false, some msg⟩ := by
  unfold guardVerdict at h
  unfold validateDecoded phase2and3
  by_cases k1 : area g < 8000
  · rw [if_pos k1] at h ⊢
    exact congrArg (LeafValidationResult.mk false) h
  · rw [if_neg k1] at h ⊢
    by_cases k2 : (7 : ℚ) < (max g.width g.height : ℚ) / (max 1 (min g.width g.height) : ℚ)
    · rw [if_pos k2] at h ⊢
      exact congrArg (LeafValidationResult.mk false) h
    · rw [if_neg k2] at h ⊢
      by_cases k3 : (summarize g).greenRatio < (0.18 : ℚ)
      · rw [if_pos k3] at h ⊢
        exact congrArg (LeafValidationResult.mk false) h
      · rw [if_neg k3] at h ⊢
        by_cases k4 : (summarize g).largestCompRatio < (0.12 : ℚ)
        · rw [if_pos k4] at h ⊢
          exact congrArg (LeafValidationResult.mk false) h
        · rw [if_neg k4] at h ⊢
          by_cases k5 : (0.995 : ℚ) < (summarize g).greenRatio
          · rw [if_pos k5] at h ⊢
            exact congrArg (LeafValidationResult.mk false) h
          · rw [if_neg k5] at h
            exact Option.noConfusion h

/-- C5: the validator is total (every invocation returns a verdict — in this
embedding any exception raised during decode arrives as the `Except.error`
case and is converted into a rejection carrying the error's message, the
source's top-level `catch`); in every returned verdict the reason is present
exactly when `valid = false`. -/
theorem c5_verdict_shape :
    (∀ input : Except String PixelGrid,
        ((validateLeafImage input).valid = true ∧ (validateLeafImage input).reason = none) ∨
          ((validateLeafImage input).valid = false ∧
            (validateLeafImage input).reason.isSome = true)) ∧
      (∀ msg : String, validateLeafImage (Except.error msg) = ⟨false, some msg⟩) := by
  constructor
  · intro input
    cases input with
    | error msg => right; exact ⟨rfl, rfl⟩
    | ok g =>
      have hv : validateLeafImage (Except.ok g) = validateDecoded g := rfl
      rw [hv]
      unfold validateDecoded
      by_cases k1 : area g < 8000
      · rw [if_pos k1]; exact Or.inr ⟨rfl, rfl⟩
      · rw [if_neg k1]
        by_cases k2 : (7 : ℚ) < (max g.width g.height : ℚ) / (max 1 (min g.width g.height) : ℚ)
        · rw [if_pos k2]; exact Or.inr ⟨rfl, rfl⟩
        · rw [if_neg k2]
          rcases phase2and3_cases (summarize g) with hc | ⟨s, hc⟩
          · rw [hc]; exact Or.inl ⟨rfl, rfl⟩
          · rw [hc]; exact Or.inr ⟨rfl, rfl⟩
  · intro msg
    rfl

/-- C8: the validator is a pure deterministic function of its input: two
invocations on equal inputs (identical decoded pixel grids, or identical
decode failures) return equal verdicts.  In this embedding
`validateLeafImage` is a Lean function, so there is no hidden state by
construction. -/
theorem c8_deterministic (a b : Except String PixelGrid) (h : a = b) :
    validateLeafImage a = validateLeafImage b := by
  rw [h]

/-- Witness for C8 at a concrete input. -/
theorem c8_deterministic_witness :
    (Except.error "x" : Except String PixelGrid) = Except.error "x" ∧
      validateLeafImage (Except.error "x") = validateLeafImage (Except.error "x") :=
  ⟨rfl, c8_deterministic _ _ rfl⟩

/-- C9: the Phase 3 fragmented-leaf rejection branch (source line 309) is
unreachable: its reason string is never returned, for any feature summary —
any input with `largestCompRatio < 0.12` was already rejected by the Phase 2
guard (line 283, which uses a different reason string) before the soft score
was computed. -/
theorem c9_fragment_branch_unreachable (f : FeatureSummary) :
    ((phase2and3 f).reason == some "Objek daun terlalu kecil/tersebar.") = false := by
  unfold phase2and3
  split_ifs <;> decide

/-- C4: whenever Phase 3 rejects (all guards passed but the soft score is
below 3), the returned reason is the single most specific applicable one in
the spec's priority order (`softRejectReason`). -/
theorem c4_soft_reject_priority (f : FeatureSummary)
    (h1 : ¬ (f.greenRatio < (0.18 : ℚ)))
    (h2 : ¬ (f.largestCompRatio < (0.12 : ℚ)))
    (h3 : ¬ ((0.995 : ℚ) < f.greenRatio))
    (h4 : ¬ (3 ≤ softScore f)) :
    phase2and3 f = ⟨false, some (softRejectReason f)⟩ := by
  unfold phase2and3 softRejectReason
  split_ifs <;> simp_all

/-- C10: whenever Phase 3 is reached (in particular the green-ratio guard
passed), the masked-hue sample list is non-empty, so `hueStdTooLow` is
defined (`some`) and soft signal 4's undefined-counts-as-satisfied default
never applies. -/
theorem c10_hue_samples_nonempty (g : PixelGrid)
    (h : ¬ ((summarize g).greenRatio < (0.18 : ℚ))) :
    0 < (hueVals g).length ∧ (summarize g).hueStdTooLow.isSome = true := by
  have hc : 0 < greenCount g := greenCount_pos_of_ratio g h
  have hl : 0 < (hueVals g).length := by rw [hueVals_length]; exact hc
  refine ⟨hl, ?_⟩
  show (hueStdTooLow g).isSome = true
  unfold hueStdTooLow
  rw [if_neg (by omega)]
  rfl

/-- C1: for every decoded pixel grid that passes all Phase 1 and Phase 2
guards, the validator accepts exactly when the soft score (signal 1 always
awarded, signals 2–5 as in the source) reaches 3; equivalently, exactly when
at least 2 of signals 2–5 hold. -/
theorem c1_accept_iff_majority (g : PixelGrid)
    (h1 : ¬ (area g < 8000))
    (h2 : ¬ ((7 : ℚ) < (max g.width g.height : ℚ) / (max 1 (min g.width g.height) : ℚ)))
    (h3 : ¬ ((summarize g).greenRatio < (0.18 : ℚ)))
    (h4 : ¬ ((summarize g).largestCompRatio < (0.12 : ℚ)))
    (h5 : ¬ ((0.995 : ℚ) < (summarize g).greenRatio)) :
    ((validateDecoded g).valid = true ↔ 3 ≤ softScore (summarize g)) ∧
      (3 ≤ softScore (summarize g) ↔ 2 ≤ softTail (summarize g)) := by
  constructor
  · unfold validateDecoded phase2and3
    rw [if_neg h1, if_neg h2, if_neg h3, if_neg h4, if_neg h5]
    split_ifs <;> simp_all
  · rw [softScore_eq_one_add]
    omega

section DecideFriendly

attribute [local semireducible] Rat.mul Rat.add Rat.sub Rat.inv Rat.ofScientific

/-- Witness for C6 at the concrete 1×1 grid. -/
theorem c6_min_area_guard_witness :
    area grid1x1 < 8000 ∧
      validateDecoded grid1x1 = ⟨false, some "Gambar terlalu kecil untuk dianalisis."⟩ :=
  ⟨by decide, c6_min_area_guard grid1x1 (by decide)⟩

/-- Witness for C2 at the concrete 1×1 grid (first guard fails). -/
theorem c2_guard_short_circuit_witness :
    guardVerdict grid1x1 = some "Gambar terlalu kecil untuk dianalisis." ∧
      validateDecoded grid1x1 = ⟨false, some "Gambar terlalu kecil untuk dianalisis."⟩ :=
  ⟨by decide, c2_guard_short_circuit grid1x1 _ (by decide)⟩

/-- Witness for C4 at a concrete low-scoring summary. -/
theorem c4_soft_reject_priority_witness :
    (¬ (lowScoreSummary.greenRatio < (0.18 : ℚ))) ∧
      (¬ (lowScoreSummary.largestCompRatio < (0.12 : ℚ))) ∧
      (¬ ((0.995 : ℚ) < lowScoreSummary.greenRatio)) ∧
      (¬ (3 ≤ softScore lowScoreSummary)) ∧
      phase2and3 lowScoreSummary = ⟨false, some (softRejectReason lowScoreSummary)⟩ :=
  ⟨by decide, by decide, by decide, by decide,
    c4_soft_reject_priority lowScoreSummary (by decide) (by decide) (by decide) (by decide)⟩

/-- Witness for C10 at the concrete 1×1 green grid. -/
theorem c10_hue_samples_nonempty_witness :
    (¬ ((summarize grid1x1).greenRatio < (0.18 : ℚ))) ∧
      0 < (hueVals grid1x1).length ∧ (summarize grid1x1).hueStdTooLow.isSome = true :=
  ⟨by decide, c10_hue_samples_nonempty grid1x1 (by decide)⟩

/-- C7 counterexample: the 250×32 solid RGB(60,160,60) grid has exactly
8000 pixels, every pixel the same green value, yet the validator rejects it
via the Phase 1 aspect-ratio guard (250/32 > 7), not via the
single-color-dominance guard. -/
theorem c7_counterexample :
    8000 ≤ area grid250x32 ∧
      (∀ i : ℕ, grid250x32.data i = ⟨60, 160, 60⟩) ∧
      validateDecoded grid250x32 =
        ⟨false, some "Rasio gambar terlalu ekstrem (tidak wajar)."⟩ ∧
      ¬ (validateDecoded grid250x32 =
        ⟨false, some "Gambar terlalu dominan satu warna (kemungkinan latar/ilustrasi)."⟩) :=
  ⟨by decide, fun _ => rfl, by decide, by decide⟩

/-- Witness for C7 (amended) at the concrete 90×90 solid green grid. -/
theorem c7_amended_witness :
    8000 ≤ area (constGrid 90 90 ⟨60, 160, 60⟩) ∧
      (¬ ((7 : ℚ) < (max 90 90 : ℚ) / (max 1 (min 90 90) : ℚ))) ∧
      validateDecoded (constGrid 90 90 ⟨60, 160, 60⟩) =
        ⟨false, some "Gambar terlalu dominan satu warna (kemungkinan latar/ilustrasi)."⟩ :=
  ⟨by decide, by decide, c7_amended 90 90 (by decide) (by decide)⟩

/-- Witness for C1 at the concrete block grid, which passes every guard. -/
theorem c1_accept_iff_majority_witness :
    (¬ (area blockGrid < 8000)) ∧
      (¬ ((7 : ℚ) < (max blockGrid.width blockGrid.height : ℚ) /
        (max 1 (min blockGrid.width blockGrid.height) : ℚ))) ∧
      (¬ ((summarize blockGrid).greenRatio < (0.18 : ℚ))) ∧
      (¬ ((summarize blockGrid).largestCompRatio < (0.12 : ℚ))) ∧
      (¬ ((0.995 : ℚ) < (summarize blockGrid).greenRatio)) ∧
      ((validateDecoded blockGrid).valid = true ↔ 3 ≤ softScore (summarize blockGrid)) ∧
      (3 ≤ softScore (summarize blockGrid) ↔ 2 ≤ softTail (summarize blockGrid)) := by
  have h1 : ¬ (area blockGrid < 8000) := by decide
  have h2 : ¬ ((7 : ℚ) < (max blockGrid.width blockGrid.height : ℚ) /
      (max 1 (min blockGrid.width blockGrid.height) : ℚ)) := by decide
  have h3 : ¬ ((summarize blockGrid).greenRatio < (0.18 : ℚ)) := by
    have he : (summarize blockGrid).greenRatio = 1 / 2 := greenRatio_block
    rw [he]
    norm_num
  have h4 : ¬ ((summarize blockGrid).largestCompRatio < (0.12 : ℚ)) := by
    have he : (summarize blockGrid).largestCompRatio = 1 / 2 := largestCompRatio_block
    rw [he]
    norm_num
  have h5 : ¬ ((0.995 : ℚ) < (summarize blockGrid).greenRatio) := by
    have he : (summarize blockGrid).greenRatio = 1 / 2 := greenRatio_block
    rw [he]
    norm_num
  obtain ⟨ha, hb⟩ := c1_accept_iff_majority blockGrid h1 h2 h3 h4 h5
  exact ⟨h1, h2, h3, h4, h5, ha, hb⟩

end DecideFriendly

end LeafValidator
